import Mathlib

/-!
# Wealthify: a verification development for `src/main.cpp`

Shallow embedding of the finance tracker (`Transaction`, `FinanceTracker`) and of its
text codec (`formatDateTime`, `parseDateTime`, `join`, `split`, save/load), followed by
theorems about them.

Conventions of the embedding
* `std::string` is a list of characters (`Str`); all delimiters the program looks at are
  ASCII, so splitting bytes and splitting characters agree.
* `double` is `F64`, a model of IEEE-754 binary64 with round-to-nearest-even.
* `std::map<std::string, std::vector<Transaction>>` is an association list with unique
  keys; the program never iterates the map, so the key order is not observable.
* Library routines whose result depends on the C library or the time zone
  (`localtime`, `mktime`, `operator<<(double)`, `std::stod`) are fields of a `Platform`.
* A C++ execution with undefined behaviour (a read of an uninitialised variable, a
  null dereference) is the result `none` of the function that models it.
-/

namespace Wealthify

/-! ## Doubles -/

/-- Model of a C++ `double`. A finite value is a sign and a magnitude counted in units of
`2^-1074`, the smallest subnormal: every finite binary64 value is such a multiple. -/
inductive F64 where
  | fin (neg : Bool) (mag : Nat)
  | inf (neg : Bool)
  | nan
  deriving DecidableEq, Repr

namespace F64

/-- The exponent of the unit: magnitudes count multiples of `2^-1074`. -/
@[irreducible] def unitExp : Nat := 1074

/-- The magnitude of `1.0` in units of `2^-1074`. -/
@[irreducible] def unit : Nat := 2 ^ unitExp

/-- The magnitude `2^1024` in units, the first magnitude that overflows to infinity. -/
@[irreducible] def overflowMag : Nat := 2 ^ (unitExp + 1024)

/-- The number of low bits that rounding to 53 significant bits drops from `n`: the least
`sh ≥ start` with `n / 2^sh < 2^53` (searched with fuel). -/
def dropBits : Nat → Nat → Nat → Nat
  | 0, _, sh => sh
  | fuel + 1, n, sh => if n / 2 ^ sh < 2 ^ 53 then sh else dropBits fuel n (sh + 1)

/-- Round a magnitude (in units of `2^-1074`) to the nearest binary64 magnitude, ties to
even; `none` is overflow to infinity. Magnitudes below `2^53` units are subnormals or lie in
the first normal binade and are exact. -/
def roundMag (n : Nat) : Option Nat :=
  let sh := dropBits n n 0
  let q := n / 2 ^ sh
  let r := n % 2 ^ sh
  let q1 := if 2 ^ sh < 2 * r ∨ (2 * r = 2 ^ sh ∧ q % 2 = 1) then q + 1 else q
  if q1 * 2 ^ sh < overflowMag then some (q1 * 2 ^ sh) else none

/-- A value that a `double` can hold. -/
def valid : F64 → Prop
  | fin _ m => roundMag m = some m
  | _ => True

instance (x : F64) : Decidable x.valid := by
  cases x <;> simp only [valid] <;> infer_instance

/-- The signed count of units of a finite value. -/
def signed (neg : Bool) (m : Nat) : Int := if neg then -(m : Int) else (m : Int)

/-- The double nearest to the exact value `z` (in units); `zeroNeg` is the sign given to an
exact zero. -/
def ofSigned (z : Int) (zeroNeg : Bool) : F64 :=
  if z = 0 then fin zeroNeg 0
  else
    match roundMag z.natAbs with
    | some m => fin (decide (z < 0)) m
    | none => inf (decide (z < 0))

/-- IEEE-754 addition `a + b`, round to nearest even. An exact zero sum is `-0` only when
both operands are negative (zero). -/
def add : F64 → F64 → F64
  | nan, _ => nan
  | _, nan => nan
  | inf a, inf b => if a = b then inf a else nan
  | inf a, fin _ _ => inf a
  | fin _ _, inf b => inf b
  | fin a m, fin b n => ofSigned (signed a m + signed b n) (a && b)

/-- Unary minus. -/
def neg : F64 → F64
  | fin s m => fin (!s) m
  | inf s => inf (!s)
  | nan => nan

/-- Subtraction `a - b`. -/
def sub (a b : F64) : F64 := add a (neg b)

/-- The function `std::abs` on doubles. -/
def abs : F64 → F64
  | fin _ m => fin false m
  | inf _ => inf false
  | nan => nan

/-- The comparison `x > 0.0`. -/
def gtZero : F64 → Bool
  | fin s m => !s && decide (0 < m)
  | inf s => !s
  | nan => false

/-- The comparison `x < 0.0`. -/
def ltZero : F64 → Bool
  | fin s m => s && decide (0 < m)
  | inf s => s
  | nan => false

/-- The comparison `a == b` of C++: a NaN equals nothing, the two zeros are equal. -/
def eq : F64 → F64 → Bool
  | nan, _ => false
  | _, nan => false
  | fin a m, fin b n => decide (m = n) && (decide (m = 0) || decide (a = b))
  | inf a, inf b => decide (a = b)
  | _, _ => false

/-- The literal `0.0`. -/
def zero : F64 := fin false 0

/-- The double that holds the whole number `z` exactly (for `|z| ≤ 2^53`). -/
def ofInt (z : Int) : F64 := fin (decide (z < 0)) (z.natAbs * unit)

end F64

/-! ## Strings and the data model -/

/-- A `std::string`. -/
abbrev Str := List Char

/-- The C++ `struct Transaction`. -/
structure Transaction where
  description : Str
  amount : F64
  timestamp : Int
  tags : List Str
  deriving DecidableEq, Repr

/-- The member function `Transaction::addTag`. -/
def Transaction.addTag (t : Transaction) (tag : Str) : Transaction :=
  { t with tags := t.tags ++ [tag] }

/-- A `std::map<std::string, std::vector<Transaction>>` as an association list with unique
keys. -/
abbrev TagMap := List (Str × List Transaction)

/-- The lookup of a bucket: `none` when the map has no entry for `tag`. -/
def bucket : TagMap → Str → Option (List Transaction)
  | [], _ => none
  | (k, v) :: m, tag => if k = tag then some v else bucket m tag

/-- The statement `m[tag].push_back(t)`: `operator[]` creates an empty bucket when the key
is absent, then `t` is appended to the bucket. -/
def bucketPush : TagMap → Str → Transaction → TagMap
  | [], tag, t => [(tag, [t])]
  | (k, v) :: m, tag, t => if k = tag then (k, v ++ [t]) :: m else (k, v) :: bucketPush m tag t

/-- The C++ `class FinanceTracker` (its three private fields). -/
structure FinanceTracker where
  balance : F64
  transactions : List Transaction
  categorizedTransactions : TagMap
  deriving DecidableEq, Repr

/-- The constructor `FinanceTracker()`: balance `0.0`, no transactions, empty map. -/
def FinanceTracker.empty : FinanceTracker :=
  { balance := F64.zero, transactions := [], categorizedTransactions := [] }

/-- The loop `for (tag : tags) categorizedTransactions[tag].push_back(t)`. -/
def categorize (m : TagMap) (t : Transaction) (tags : List Str) : TagMap :=
  tags.foldl (fun acc tag => bucketPush acc tag t) m

/-- The member function `addTransaction`; `now` is the value of `std::time(nullptr)`. -/
def addTransaction (ft : FinanceTracker) (now : Int) (description : Str) (amount : F64)
    (tags : List Str) : FinanceTracker :=
  let t : Transaction := { description := description, amount := amount, timestamp := now, tags := tags }
  { balance := ft.balance.add amount
    transactions := ft.transactions ++ [t]
    categorizedTransactions := categorize ft.categorizedTransactions t tags }

/-- The member function `getTotalAmount`: the sum of `std::abs(amount)` over the transactions
that satisfy the predicate, accumulated from `0.0` in sequence order. -/
def getTotalAmount (ft : FinanceTracker) (predicate : Transaction → Bool) : F64 :=
  ft.transactions.foldl (fun total t => if predicate t then total.add t.amount.abs else total) F64.zero

/-- The member function `getTotalIncome`. -/
def getTotalIncome (ft : FinanceTracker) : F64 :=
  getTotalAmount ft (fun t => t.amount.gtZero)

/-- The member function `getTotalExpenses`. -/
def getTotalExpenses (ft : FinanceTracker) : F64 :=
  getTotalAmount ft (fun t => t.amount.ltZero)

/-- One call of `addTransaction`: the clock value and the three arguments. -/
structure AddCall where
  now : Int
  description : Str
  amount : F64
  tags : List Str

/-- A sequence of `addTransaction` calls applied in order. -/
def runAdds (ft : FinanceTracker) (calls : List AddCall) : FinanceTracker :=
  calls.foldl (fun s c => addTransaction s c.now c.description c.amount c.tags) ft

/-! ## Streams and text

An input stream is the list of characters not yet read. An extraction returns `none` when
the stream is not `good()` after it (failbit or eofbit is set), so that every later
extraction does nothing and leaves its target variable unwritten. -/

/-- The C function `isspace` in the "C" locale. -/
def isSpace (c : Char) : Bool :=
  c = ' ' || c = '\t' || c = '\n' || c = '\x0b' || c = '\x0c' || c = '\x0d'

/-- What an input sentry does before a formatted extraction: skip leading whitespace. -/
def skipWs : Str → Str
  | [] => []
  | c :: cs => if isSpace c then skipWs cs else c :: cs

/-- The characters before the first `delim` and the characters after it. -/
def untilDelim (delim : Char) : Str → Str × Str
  | [] => ([], [])
  | c :: cs => if c = delim then ([], cs) else (c :: (untilDelim delim cs).1, (untilDelim delim cs).2)

/-- The call `std::getline(stream, token, delim)` as a condition: `none` when no character
could be extracted (the call is false), otherwise the token and the unread rest; the
delimiter is extracted and dropped. -/
def getline (s : Str) (delim : Char) : Option (Str × Str) :=
  match s with
  | [] => none
  | _ :: _ => some (untilDelim delim s)

/-- The loop `while (std::getline(stream, token, delim)) tokens.push_back(token)`. -/
def getlineLoop : Nat → Str → Char → List Str
  | 0, _, _ => []
  | fuel + 1, s, delim =>
    match getline s delim with
    | none => []
    | some (token, rest) => token :: getlineLoop fuel rest delim

/-- The member function `split`; every iteration extracts a character, so `s.length`
iterations are enough. -/
def split (s : Str) (delimiter : Char) : List Str :=
  getlineLoop s.length s delimiter

/-- The loop of `join`: `i` is the index of the next element, `result` the text so far. -/
def joinLoop (delimiter : Str) : Nat → List Str → Str → Str
  | _, [], result => result
  | i, x :: xs, result =>
    joinLoop delimiter (i + 1) xs ((if i > 0 then result ++ delimiter else result) ++ x)

/-- The member function `join`. -/
def join (vec : List Str) (delimiter : Str) : Str :=
  joinLoop delimiter 0 vec []

/-- The decimal digits of `n`, most significant first, in front of `acc`. -/
def natToDecAux : Nat → Nat → Str → Str
  | 0, _, acc => acc
  | fuel + 1, n, acc =>
    if n < 10 then Nat.digitChar n :: acc
    else natToDecAux fuel (n / 10) (Nat.digitChar (n % 10) :: acc)

/-- The decimal text of a natural number. -/
def natToDec (n : Nat) : Str := natToDecAux (n + 1) n []

/-- The text `operator<<` writes for an `int` with no width set. -/
def intToDec (z : Int) : Str :=
  if z < 0 then '-' :: natToDec z.natAbs else natToDec z.natAbs

/-- The text `<< std::setfill('0') << std::setw(2) << z` writes: the decimal text, filled
on the left with `'0'` up to two characters. -/
def put2 (z : Int) : Str :=
  List.replicate (2 - (intToDec z).length) '0' ++ intToDec z

/-- The fields of `struct tm` that the program and `mktime` read. -/
structure Tm where
  sec : Int
  min : Int
  hour : Int
  mday : Int
  mon : Int
  year : Int
  isdst : Int
  deriving DecidableEq, Repr

/-- The library routines whose result depends on the C library, the locale or the time
zone. `localtime` is `none` for a null result; `mktime` returns `-1` on failure;
`render` is `operator<<(std::ostream&, double)` with the default flags; `stod` is
`std::stod`, `none` when it throws. -/
structure Platform where
  localtime : Int → Option Tm
  mktime : Tm → Int
  render : F64 → Str
  stod : Str → Option F64

/-- The text that `formatDateTime` builds from the broken-down local time. -/
def formatTm (tm : Tm) : Str :=
  put2 (tm.mon + 1) ++ "/".toList ++ put2 tm.mday ++ "/".toList ++ intToDec (tm.year + 1900)
    ++ " - ".toList
    ++ put2 (if Int.tmod tm.hour 12 = 0 then 12 else Int.tmod tm.hour 12) ++ ":".toList
    ++ put2 tm.min ++ (if tm.hour < 12 then "AM".toList else "PM".toList)

/-- The member function `formatDateTime`; `none` when `std::localtime` returns null and
the function dereferences it. -/
def formatDateTime (P : Platform) (timestamp : Int) : Option Str :=
  (P.localtime timestamp).map formatTm

/-- The loop of `time_get::_M_extract_num` (libstdc++ 12): read at most `len` digits,
stop before a digit that takes the value above `max`. Returns the unread rest, the number
of characters read and the value. -/
def extractNumLoop (max : Nat) : Nat → Str → Nat → Nat → Str × Nat × Nat
  | 0, s, i, value => (s, i, value)
  | _ + 1, [], i, value => ([], i, value)
  | len + 1, c :: cs, i, value =>
    if c.isDigit then
      if value * 10 + (c.toNat - 48) > max then (c :: cs, i, value * 10 + (c.toNat - 48))
      else extractNumLoop max len cs (i + 1) (value * 10 + (c.toNat - 48))
    else (c :: cs, i, value)

/-- The function `time_get::_M_extract_num`: the unread rest, and the number when at least
one digit was read and the value lies in `min..max`. -/
def extractNum (min max len : Nat) (s : Str) : Str × Option Nat :=
  let r := extractNumLoop max len s 0 0
  if 0 < r.2.1 ∧ min ≤ r.2.2 ∧ r.2.2 ≤ max then (r.1, some r.2.2) else (r.1, none)

/-- The extraction `ss >> std::get_time(&tm, "%m/%d/%Y")` (libstdc++ 12): the values of
`tm_mon`, `tm_mday`, `tm_year` and the unread rest; `none` when the stream is not good
afterwards (a conversion or a literal `/` failed, or the end of the text was reached). -/
def getTime (s : Str) : Option ((Int × Int × Int) × Str) :=
  match skipWs s with
  | [] => none
  | c0 :: s0 =>
    match extractNum 1 12 2 (c0 :: s0) with
    | (_, none) => none
    | (s1, some month) =>
      match s1 with
      | [] => none
      | c1 :: s2 =>
        if c1 ≠ '/' then none
        else
          match s2 with
          | [] => none
          | c2 :: s3 =>
            match extractNum 1 31 2 (if isSpace c2 then s3 else c2 :: s3) with
            | (_, none) => none
            | (s4, some day) =>
              match s4 with
              | [] => none
              | c4 :: s5 =>
                if c4 ≠ '/' then none
                else
                  match s5 with
                  | [] => none
                  | c5 :: s6 =>
                    match extractNum 0 9999 4 (c5 :: s6) with
                    | (_, none) => none
                    | ([], some _) => none
                    | (c7 :: s7, some year) =>
                      some (((month : Int) - 1, (day : Int), (year : Int) - 1900), c7 :: s7)

/-- The extraction `ss >> delimiter` of one `char`. -/
def extractChar (s : Str) : Option (Char × Str) :=
  match skipWs s with
  | [] => none
  | c :: cs => some (c, cs)

/-- The leading decimal digits of a text and what follows them. -/
def spanDigits : Str → Str × Str
  | [] => ([], [])
  | c :: cs => if c.isDigit then (c :: (spanDigits cs).1, (spanDigits cs).2) else ([], c :: cs)

/-- The value of a text of decimal digits. -/
def decValue (digits : Str) : Nat :=
  digits.foldl (fun acc c => acc * 10 + (c.toNat - 48)) 0

/-- The extraction `ss >> value` of an `int`: optional sign, decimal digits. `none` when
there is no digit, when the value does not fit a 32-bit `int`, or when the digits run to
the end of the text (eofbit). -/
def extractInt (s : Str) : Option (Int × Str) :=
  match skipWs s with
  | [] => none
  | c :: cs =>
    let negative := decide (c = '-')
    let body := if c = '-' ∨ c = '+' then cs else c :: cs
    let digits := (spanDigits body).1
    let rest := (spanDigits body).2
    let value : Int := if negative then -(decValue digits : Int) else (decValue digits : Int)
    if digits = [] ∨ rest = [] ∨ value < -2147483648 ∨ 2147483647 < value then none
    else some (value, rest)

/-- The call `ss.ignore()`: drop one character. -/
def ignore (s : Str) : Option Str :=
  match s with
  | [] => none
  | _ :: cs => some cs

/-- At most `n` leading characters that are not whitespace, and the unread rest. -/
def takeWord : Nat → Str → Str × Str
  | 0, s => ([], s)
  | _ + 1, [] => ([], [])
  | n + 1, c :: cs =>
    if isSpace c then ([], c :: cs) else (c :: (takeWord n cs).1, (takeWord n cs).2)

/-- The extraction `ss >> meridian` into a `char` array when `ss.width()` is `width > 0`:
characters are stored until `width - 1` of them are stored or whitespace or the end of the
text follows, then the terminating null. `none` when the array is not written. -/
def extractCStr (width : Nat) (s : Str) : Option (Str × Str) :=
  match skipWs s with
  | [] => none
  | c :: cs => some (takeWord (width - 1) (c :: cs))

/-- The stream part of `parseDateTime`, up to the `tm` handed to `std::mktime`; `none`
when a variable is read that no extraction has written (undefined behaviour).
`std::setw(2)` does not limit the extraction of an `int`, and only the extraction of a
string or character array resets the width to 0, so `ss.width()` is still 2 when
`meridian` is extracted and a single character of it is stored. -/
def readDateTime (datetimeStr : Str) : Option Tm :=
  match getTime datetimeStr with
  | none => none
  | some ((mon, mday, year), s1) =>
    match extractChar s1 with
    | none => none
    | some (_, s2) =>
      match extractInt s2 with
      | none => none
      | some (hour, s3) =>
        match ignore s3 with
        | none => none
        | some s4 =>
          match extractInt s4 with
          | none => none
          | some (minute, s5) =>
            match extractCStr 2 s5 with
            | none => none
            | some (meridian, _) =>
              if meridian = "PM".toList ∧ hour ≠ 12 then
                if 2147483647 < hour + 12 then none
                else some { sec := 0, min := minute, hour := hour + 12, mday := mday, mon := mon,
                            year := year, isdst := 0 }
              else if meridian = "AM".toList ∧ hour = 12 then
                some { sec := 0, min := minute, hour := 0, mday := mday, mon := mon,
                       year := year, isdst := 0 }
              else
                some { sec := 0, min := minute, hour := hour, mday := mday, mon := mon,
                       year := year, isdst := 0 }

/-- The three ways a call of `parseDateTime` can end. -/
inductive ParseOutcome where
  | value (timestamp : Int)
  | runtimeError
  | undefined
  deriving DecidableEq, Repr

/-- The member function `parseDateTime`. -/
def parseDateTime (P : Platform) (datetimeStr : Str) : ParseOutcome :=
  match readDateTime datetimeStr with
  | none => ParseOutcome.undefined
  | some tm =>
    if P.mktime tm = -1 then ParseOutcome.runtimeError else ParseOutcome.value (P.mktime tm)

/-! ## Saving and loading -/

/-- The header line that `saveTransactionsToFile` writes. -/
def headerLine : Str := "Date , Description , Amount , Tags".toList

/-- One row of the file, without the line end. -/
def encodeRow (P : Platform) (t : Transaction) : Option Str :=
  (formatDateTime P t.timestamp).map fun stamp =>
    stamp ++ ",".toList ++ t.description ++ ",".toList ++ P.render t.amount ++ ",".toList
      ++ join t.tags ";".toList

/-- The rows of the transactions, each followed by `std::endl`. -/
def encodeRows (P : Platform) : List Transaction → Option Str
  | [] => some []
  | t :: ts =>
    match encodeRow P t, encodeRows P ts with
    | some row, some rest => some (row ++ '\n' :: rest)
    | _, _ => none

/-- The member function `saveTransactionsToFile` when the file opens: the content written.
`none` when `formatDateTime` has undefined behaviour. -/
def saveTransactionsToFile (P : Platform) (ft : FinanceTracker) : Option Str :=
  (encodeRows P ft.transactions).map fun rows => headerLine ++ '\n' :: rows

/-- What the body of the line loop of `loadTransactionsFromFile` does with one data line. -/
inductive RowOutcome where
  | skipped
  | caught
  | parsed (t : Transaction)
  | undefined
  deriving DecidableEq, Repr

/-- The four `getline` calls that cut a data line into its fields: up to the first comma,
up to the second, up to the third, and the rest of the line. `none` when one of the calls
is false. -/
def rowFields (line : Str) : Option (Str × Str × Str × Str) :=
  match getline line ',' with
  | none => none
  | some (timestampStr, r1) =>
    match getline r1 ',' with
    | none => none
    | some (description, r2) =>
      match getline r2 ',' with
      | none => none
      | some (amountStr, r3) =>
        match getline r3 '\n' with
        | none => none
        | some (tagsStr, _) => some (timestampStr, description, amountStr, tagsStr)

/-- The decoding of one data line: the four `getline` calls, then `parseDateTime`,
`std::stod` and `split` inside the `try` block. -/
def decodeRow (P : Platform) (line : Str) : RowOutcome :=
  match rowFields line with
  | none => RowOutcome.skipped
  | some (timestampStr, description, amountStr, tagsStr) =>
    match parseDateTime P timestampStr with
    | ParseOutcome.undefined => RowOutcome.undefined
    | ParseOutcome.runtimeError => RowOutcome.caught
    | ParseOutcome.value timestamp =>
      match P.stod amountStr with
      | none => RowOutcome.caught
      | some amount =>
        RowOutcome.parsed
          { description := description, amount := amount, timestamp := timestamp,
            tags := split tagsStr ';' }

/-- The body of the line loop for one data line: a parsed transaction is appended, added
to the balance and put into the bucket of each of its tags. -/
def loadLine (P : Platform) (ft : FinanceTracker) (line : Str) : Option FinanceTracker :=
  match decodeRow P line with
  | RowOutcome.skipped => some ft
  | RowOutcome.caught => some ft
  | RowOutcome.undefined => none
  | RowOutcome.parsed t =>
    some { balance := ft.balance.add t.amount
           transactions := ft.transactions ++ [t]
           categorizedTransactions := categorize ft.categorizedTransactions t t.tags }

/-- The data lines in order. -/
def loadLines (P : Platform) : FinanceTracker → List Str → Option FinanceTracker
  | ft, [] => some ft
  | ft, line :: lines =>
    match loadLine P ft line with
    | none => none
    | some ft1 => loadLines P ft1 lines

/-- The lines that the loop `while (std::getline(file, line))` reads from a file. -/
def fileLines (content : Str) : List Str :=
  getlineLoop content.length content '\n'

/-- The member function `loadTransactionsFromFile`; `file` is the content of the file, or
`none` when it cannot be opened. The state is cleared first; the first line is dropped.
The result is `none` when a line has undefined behaviour. -/
def loadTransactionsFromFile (P : Platform) (_ft : FinanceTracker) (file : Option Str) :
    Option FinanceTracker :=
  match file with
  | none => some FinanceTracker.empty
  | some content => loadLines P FinanceTracker.empty ((fileLines content).drop 1)

/-- The member function `addTagToTransaction`: the state after the call and whether
`std::out_of_range` was thrown. -/
def addTagToTransaction (ft : FinanceTracker) (index : Int) (tag : Str) : FinanceTracker × Bool :=
  if h : 0 ≤ index ∧ index < (ft.transactions.length : Int) then
    let i : Fin ft.transactions.length := ⟨index.toNat, by omega⟩
    let t := (ft.transactions.get i).addTag tag
    ({ ft with
        transactions := ft.transactions.set i t
        categorizedTransactions := bucketPush ft.categorizedTransactions tag t },
      false)
  else (ft, true)

/-! ## A reference platform

glibc and libstdc++ in the "C" locale with the time zone UTC. It serves to evaluate the
program on concrete inputs; the general theorems hold for every `Platform`. -/

namespace Ref

/-- The number of days from 1970-01-01 to the civil date `y`-`m`-`d`
in the proleptic Gregorian calendar (`m` in 1..12; `d` may lie outside the month). -/
def daysFromCivil (y m d : Int) : Int :=
  let y1 := if m ≤ 2 then y - 1 else y
  let era := y1 / 400
  let yoe := y1 - era * 400
  let doy := (153 * (if m > 2 then m - 3 else m + 9) + 2) / 5 + d - 1
  let doe := yoe * 365 + yoe / 4 - yoe / 100 + doy
  era * 146097 + doe - 719468

/-- The civil date (year, month 1..12, day 1..31) of a day number counted from
1970-01-01. -/
def civilFromDays (z0 : Int) : Int × Int × Int :=
  let z := z0 + 719468
  let era := z / 146097
  let doe := z - era * 146097
  let yoe := (doe - doe / 1460 + doe / 36524 - doe / 146096) / 365
  let doy := doe - (365 * yoe + yoe / 4 - yoe / 100)
  let mp := (5 * doy + 2) / 153
  let d := doy - (153 * mp + 2) / 5 + 1
  let m := if mp < 10 then mp + 3 else mp - 9
  (if m ≤ 2 then yoe + era * 400 + 1 else yoe + era * 400, m, d)

/-- The function `localtime` under UTC; null when the year does not fit `tm_year`. -/
def localtime (t : Int) : Option Tm :=
  let days := t / 86400
  let secs := t % 86400
  let ymd := civilFromDays days
  if ymd.1 - 1900 < -2147483648 ∨ 2147483647 < ymd.1 - 1900 then none
  else some { sec := secs % 60, min := secs / 60 % 60, hour := secs / 3600, mday := ymd.2.2,
              mon := ymd.2.1 - 1, year := ymd.1 - 1900, isdst := 0 }

/-- The function `mktime` under UTC: out-of-range fields are normalised (the month carries
into the year; days, hours, minutes and seconds are added linearly); `-1` when the
resulting year does not fit `tm_year`. UTC has no daylight saving time, `tm_isdst` has no
effect. -/
def mktime (tm : Tm) : Int :=
  let y := 1900 + tm.year + tm.mon / 12
  let m := tm.mon % 12 + 1
  let days := daysFromCivil y m 1 + (tm.mday - 1)
  let t := ((days * 24 + tm.hour) * 60 + tm.min) * 60 + tm.sec
  match localtime t with
  | none => -1
  | some _ => t

/-- Whether `10^e ≤ m / 2^1074`. -/
def geTenPow (m : Nat) (e : Int) : Bool :=
  if 0 ≤ e then decide (10 ^ e.toNat * F64.unit ≤ m) else decide (F64.unit ≤ m * 10 ^ (-e).toNat)

/-- The largest `e ≤ start` with `10^e ≤ m / 2^1074`, searched downwards. -/
def findExp10 : Nat → Nat → Int → Int
  | 0, _, e => e
  | fuel + 1, m, e => if geTenPow m e then e else findExp10 fuel m (e - 1)

/-- Round the fraction `num / den` to the nearest integer, ties to even. -/
def roundHalfEven (num den : Nat) : Nat :=
  let q := num / den
  let r := num % den
  if den < 2 * r ∨ (2 * r = den ∧ q % 2 = 1) then q + 1 else q

/-- Drop the trailing zeros of a text of digits. -/
def stripZeros (digits : Str) : Str :=
  (digits.reverse.dropWhile (fun c => c = '0')).reverse

/-- The text of a decimal exponent as `printf` writes it: a sign and at least two digits. -/
def expText (x : Int) : Str :=
  (if x < 0 then '-' else '+') :: (List.replicate (2 - (natToDec x.natAbs).length) '0' ++ natToDec x.natAbs)

/-- The conversion `%g` with precision 6 of a positive finite magnitude. -/
def renderMag (m : Nat) : Str :=
  let e0 := findExp10 640 m 308
  let d0 := if 5 ≤ e0 then roundHalfEven m (F64.unit * 10 ^ (e0 - 5).toNat)
            else roundHalfEven (m * 10 ^ (5 - e0).toNat) F64.unit
  let x := if d0 = 1000000 then e0 + 1 else e0
  let digits := natToDec (if d0 = 1000000 then 100000 else d0)
  if x < -4 ∨ 6 ≤ x then
    let frac := stripZeros (digits.drop 1)
    digits.take 1 ++ (if frac = [] then [] else '.' :: frac) ++ 'e' :: expText x
  else if 0 ≤ x then
    let frac := stripZeros (digits.drop (x.toNat + 1))
    digits.take (x.toNat + 1) ++ (if frac = [] then [] else '.' :: frac)
  else
    "0.".toList ++ List.replicate ((-x).toNat - 1) '0' ++ stripZeros digits

/-- The text `operator<<` writes for a `double` with the default flags (`%g`, precision
6). -/
def render : F64 → Str
  | F64.nan => "nan".toList
  | F64.inf s => if s then "-inf".toList else "inf".toList
  | F64.fin s m =>
    (if s then ['-'] else []) ++ (if m = 0 then ['0'] else renderMag m)

/-- Round the positive fraction `a / b` (in units of `2^-1074`) to a binary64 magnitude,
ties to even. Returns `none` on overflow, otherwise the magnitude and whether the
conversion raises the range error: an inexact result whose value, rounded to 53 bits with
an unbounded exponent, lies below the smallest normal number. -/
def roundRatio (a b : Nat) : Option (Nat × Bool) :=
  let n := a / b
  let sh := F64.dropBits n n 0
  let g := 2 ^ sh * b
  let q := a / g
  let r := a % g
  let q1 := if g < 2 * r ∨ (2 * r = g ∧ q % 2 = 1) then q + 1 else q
  if q1 * 2 ^ sh < F64.overflowMag then
    some (q1 * 2 ^ sh, decide (r ≠ 0) && decide (4 * a < (2 ^ 54 - 1) * b))
  else none

/-- The value of a hexadecimal digit. -/
def hexVal (c : Char) : Option Nat :=
  if c.isDigit then some (c.toNat - 48)
  else if 'a'.toNat ≤ c.toNat ∧ c.toNat ≤ 'f'.toNat then some (c.toNat - 87)
  else if 'A'.toNat ≤ c.toNat ∧ c.toNat ≤ 'F'.toNat then some (c.toNat - 55)
  else none

/-- The leading hexadecimal digits of a text and what follows them. -/
def spanHex : Str → Str × Str
  | [] => ([], [])
  | c :: cs => if (hexVal c).isSome then (c :: (spanHex cs).1, (spanHex cs).2) else ([], c :: cs)

/-- The value of a text of hexadecimal digits. -/
def hexValue (digits : Str) : Nat :=
  digits.foldl (fun acc c => acc * 16 + (hexVal c).getD 0) 0

/-- An optional exponent part: the marker character, an optional sign and at least one
digit; the exponent is 0 when the part is absent or incomplete. -/
def exponentPart (lower upper : Char) (s : Str) : Int :=
  match s with
  | [] => 0
  | c :: cs =>
    if c = lower ∨ c = upper then
      let negative := decide (cs.head? = some '-')
      let body := if cs.head? = some '-' ∨ cs.head? = some '+' then cs.drop 1 else cs
      let digits := (spanDigits body).1
      if digits = [] then 0
      else if negative then -(decValue digits : Int) else (decValue digits : Int)
    else 0

/-- The double for the exact value `mant * base^e10 * 2^e2` (`mant > 0`), or `none` on a
range error. -/
def scaleToF64 (negative : Bool) (mant : Nat) (e10 e2 : Int) : Option F64 :=
  let a := mant * 10 ^ e10.toNat * 2 ^ (e2 + 1074).toNat
  let b := 10 ^ (-e10).toNat * 2 ^ (-(e2 + 1074)).toNat
  match roundRatio a b with
  | none => none
  | some (m, rangeError) => if rangeError then none else some (F64.fin negative m)

/-- Compare the head of a text with a word, ignoring case. -/
def startsWithNoCase : Str → Str → Bool
  | _, [] => true
  | [], _ :: _ => false
  | c :: cs, w :: ws => (c.toLower = w) && startsWithNoCase cs ws

/-- The function `std::stod` (glibc `strtod`): leading whitespace, an optional sign, then
`inf`, `nan`, a hexadecimal or a decimal number; what follows the number is ignored.
`none` when it throws (`std::invalid_argument` without a number, `std::out_of_range` on a
range error). -/
def stod (str : Str) : Option F64 :=
  match skipWs str with
  | [] => none
  | c :: cs =>
    let negative := decide (c = '-')
    let body := if c = '-' ∨ c = '+' then cs else c :: cs
    if startsWithNoCase body "inf".toList then some (F64.inf negative)
    else if startsWithNoCase body "nan".toList then some F64.nan
    else
      let hexBody := body.drop 2
      let hexInt := (spanHex hexBody).1
      let hexAfter := (spanHex hexBody).2
      let hexFrac := if hexAfter.head? = some '.' then (spanHex (hexAfter.drop 1)).1 else []
      let hexRest := if hexAfter.head? = some '.' then (spanHex (hexAfter.drop 1)).2 else hexAfter
      if startsWithNoCase body "0x".toList ∧ (hexInt ≠ [] ∨ hexFrac ≠ []) then
        let mant := hexValue (hexInt ++ hexFrac)
        if mant = 0 then some (F64.fin negative 0)
        else scaleToF64 negative mant 0 (exponentPart 'p' 'P' hexRest - 4 * hexFrac.length)
      else
        let intDigits := (spanDigits body).1
        let after := (spanDigits body).2
        let fracDigits := if after.head? = some '.' then (spanDigits (after.drop 1)).1 else []
        let rest := if after.head? = some '.' then (spanDigits (after.drop 1)).2 else after
        if intDigits = [] ∧ fracDigits = [] then none
        else
          let mant := decValue (intDigits ++ fracDigits)
          if mant = 0 then some (F64.fin negative 0)
          else scaleToF64 negative mant (exponentPart 'e' 'E' rest - fracDigits.length) 0

end Ref

/-- The reference platform. -/
def refPlatform : Platform :=
  { localtime := Ref.localtime, mktime := Ref.mktime, render := Ref.render, stod := Ref.stod }

/-- The transaction that a call of `addTransaction` creates. -/
def AddCall.toTransaction (c : AddCall) : Transaction :=
  { description := c.description, amount := c.amount, timestamp := c.now, tags := c.tags }

/-- Three calls with the amounts `2^53`, `-2^53` and `1`. -/
def roundingCalls : List AddCall :=
  [ { now := 0, description := "a".toList, amount := F64.ofInt (2 ^ 53), tags := [] },
    { now := 0, description := "b".toList, amount := F64.ofInt (-(2 ^ 53)), tags := [] },
    { now := 0, description := "c".toList, amount := F64.ofInt 1, tags := [] } ]

/-- Two calls with the whole-number amounts 1500 and -900. -/
def wholeCalls : List AddCall :=
  [ { now := 0, description := "Paycheck".toList, amount := F64.ofInt 1500, tags := ["income".toList] },
    { now := 0, description := "Rent".toList, amount := F64.ofInt (-900), tags := ["housing".toList] } ]

/-- The sum of `|z|` over the whole numbers `z` of a list that satisfy `q`. -/
def absSumIf (q : Int → Bool) : List Int → Nat
  | [] => 0
  | z :: zs => if q z then z.natAbs + absSumIf q zs else absSumIf q zs

/-- The sum of the amounts of a transaction sequence, accumulated from `0.0` in sequence
order (the order in which `balance += amount` runs). -/
def sumAmounts (ts : List Transaction) : F64 :=
  ts.foldl (fun b t => b.add t.amount) F64.zero

/-- The ledger states that can be reached from the fresh tracker by calls of
`addTransaction`, `addTagToTransaction` (successful or throwing) and
`loadTransactionsFromFile`. -/
inductive Reachable (P : Platform) : FinanceTracker → Prop where
  | empty : Reachable P FinanceTracker.empty
  | add (s : FinanceTracker) (now : Int) (description : Str) (amount : F64) (tags : List Str) :
      Reachable P s → Reachable P (addTransaction s now description amount tags)
  | addTag (s : FinanceTracker) (index : Int) (tag : Str) :
      Reachable P s → Reachable P (addTagToTransaction s index tag).1
  | load (s : FinanceTracker) (file : Option Str) (s' : FinanceTracker) :
      Reachable P s → loadTransactionsFromFile P s file = some s' → Reachable P s'

/-- The transactions of the data lines that decode. -/
def acceptedRows (P : Platform) (lines : List Str) : List Transaction :=
  lines.filterMap fun line =>
    match decodeRow P line with
    | RowOutcome.parsed t => some t
    | _ => none

/-- The entry `e` is a copy of `t` taken when `t` had fewer (or the same) tags: equal
description, amount and timestamp, and a tag list that `t`'s tag list extends. -/
def IsSnapshotOf (e t : Transaction) : Prop :=
  e.description = t.description ∧ e.amount = t.amount ∧ e.timestamp = t.timestamp ∧
    e.tags <+: t.tags

/-- The tag-index property with exact copies: every tag of every transaction has a bucket
that contains the transaction as it is now. -/
def TagIndexExact (s : FinanceTracker) : Prop :=
  ∀ t ∈ s.transactions, ∀ g ∈ t.tags,
    ∃ b, bucket s.categorizedTransactions g = some b ∧ t ∈ b

/-- The tag-index property with snapshots: every tag of every transaction has a bucket
that contains a snapshot of the transaction that carries the tag. -/
def TagIndexSnapshots (s : FinanceTracker) : Prop :=
  ∀ t ∈ s.transactions, ∀ g ∈ t.tags,
    ∃ b, bucket s.categorizedTransactions g = some b ∧ ∃ e ∈ b, IsSnapshotOf e t ∧ g ∈ e.tags

/-- One transaction with the tag `a`, then the tag `b` added to it. -/
def staleState : FinanceTracker :=
  (addTagToTransaction
    (addTransaction FinanceTracker.empty 0 "x".toList (F64.ofInt 1) ["a".toList]) 0 "b".toList).1

/-- A tracker with the two transactions of the scenario. -/
def twoRows (now1 now2 : Int) : FinanceTracker :=
  addTransaction
    (addTransaction FinanceTracker.empty now1 "Paycheck".toList (F64.ofInt 1500) ["income".toList])
    now2 "Rent".toList (F64.ofInt (-900)) ["housing".toList]

/-- A file with the header and one well-formed row. -/
def sampleDoc : Str :=
  "Date , Description , Amount , Tags\n01/01/1970 - 10:00AM,Rent,-900,housing\n".toList

/-- The state after loading `sampleDoc` on the reference platform. -/
def sampleLoaded : FinanceTracker :=
  { balance := F64.ofInt (-900)
    transactions :=
      [{ description := "Rent".toList, amount := F64.ofInt (-900), timestamp := 36000,
         tags := ["housing".toList] }]
    categorizedTransactions :=
      [("housing".toList,
        [{ description := "Rent".toList, amount := F64.ofInt (-900), timestamp := 36000,
           tags := ["housing".toList] }])] }

/-- The hour of the 12-hour clock that `formatDateTime` prints for the 24-hour `hour`. -/
def hour12 (hour : Int) : Int :=
  if Int.tmod hour 12 = 0 then 12 else Int.tmod hour 12

/-- The ranges that the C standard gives for the fields of a broken-down time returned by
`localtime` (the fields the program prints). -/
def Tm.inRange (tm : Tm) : Prop :=
  0 ≤ tm.min ∧ tm.min ≤ 59 ∧ 0 ≤ tm.hour ∧ tm.hour ≤ 23 ∧ 1 ≤ tm.mday ∧ tm.mday ≤ 31 ∧
    0 ≤ tm.mon ∧ tm.mon ≤ 11

instance (tm : Tm) : Decidable tm.inRange := by
  unfold Tm.inRange; infer_instance

/-- The `tm` that `parseDateTime` hands to `std::mktime` after reading the text printed for
`tm`: the date and the minute as printed, the hour as printed on the 12-hour clock, zero
seconds. -/
def Tm.reread (tm : Tm) : Tm :=
  { sec := 0, min := tm.min, hour := hour12 tm.hour, mday := tm.mday, mon := tm.mon,
    year := tm.year, isdst := 0 }

/-- The text shape `MM/DD/YYYY - hh:mmAM/PM` written out: two digits of the month, `/`,
two digits of the day, `/`, four digits of the year, ` - `, two digits of the hour of the
12-hour clock, `:`, two digits of the minute, `AM` or `PM`. -/
def dateTimeShape (month day year hour minute : Nat) (pm : Bool) : Str :=
  [Nat.digitChar (month / 10), Nat.digitChar (month % 10), '/',
   Nat.digitChar (day / 10), Nat.digitChar (day % 10), '/',
   Nat.digitChar (year / 1000), Nat.digitChar (year / 100 % 10),
   Nat.digitChar (year / 10 % 10), Nat.digitChar (year % 10), ' ', '-', ' ',
   Nat.digitChar (hour / 10), Nat.digitChar (hour % 10), ':',
   Nat.digitChar (minute / 10), Nat.digitChar (minute % 10), (if pm then 'P' else 'A'), 'M']

/-- A transaction of 1970-01-01 10:00 (UTC) with one tag. -/
def sampleRow : Transaction :=
  { description := "Rent".toList, amount := F64.ofInt (-900), timestamp := 36000,
    tags := ["housing".toList] }

/-- The same transaction without tags. -/
def untaggedRow : Transaction :=
  { description := "Rent".toList, amount := F64.ofInt (-900), timestamp := 36000, tags := [] }

/-- The transaction `sampleRow` with a line break in its description. -/
def lineBreakRow : Transaction :=
  { description := "a\nb".toList, amount := F64.ofInt (-900), timestamp := 36000,
    tags := ["housing".toList] }

/-- A file whose second data line has the amount field `abc`. -/
def corruptDoc : Str :=
  ("Date , Description , Amount , Tags\n01/01/1970 - 10:00AM,Paycheck,1500,income\n"
    ++ "01/01/1970 - 10:01AM,Oops,abc,misc\n01/01/1970 - 10:02AM,Rent,-900,housing\n").toList

/-- The same file without the second data line. -/
def cleanDoc : Str :=
  ("Date , Description , Amount , Tags\n01/01/1970 - 10:00AM,Paycheck,1500,income\n"
    ++ "01/01/1970 - 10:02AM,Rent,-900,housing\n").toList

/-- The two transactions that `corruptDoc` and `cleanDoc` hold (reference platform). -/
def corruptDocRows : List Transaction :=
  [ { description := "Paycheck".toList, amount := F64.ofInt 1500, timestamp := 36000,
      tags := ["income".toList] },
    { description := "Rent".toList, amount := F64.ofInt (-900), timestamp := 36120,
      tags := ["housing".toList] } ]

/-- The local time 2024-01-01 13:05:00, the timestamp 1704114300 under UTC. -/
def tmA : Tm := { sec := 0, min := 5, hour := 13, mday := 1, mon := 0, year := 124, isdst := 0 }

/-- The local time 2024-01-01 13:06:00, the timestamp 1704114360 under UTC. -/
def tmB : Tm := { sec := 0, min := 6, hour := 13, mday := 1, mon := 0, year := 124, isdst := 0 }

/-- A transaction of 1970-01-01 10:00 (UTC) with an amount of seven digits. -/
def sevenDigitRow : Transaction :=
  { description := "Car".toList, amount := F64.ofInt 1234567, timestamp := 36000,
    tags := ["auto".toList] }

/-- A file like `sampleDoc` whose first line is a well-formed data row instead of the
header. -/
def rowFirstDoc : Str :=
  "01/01/1970 - 10:05AM,Gift,25,income\n01/01/1970 - 10:00AM,Rent,-900,housing\n".toList

/-- The row of `untaggedRow` as `saveTransactionsToFile` writes it: nothing follows the
third comma. -/
def untaggedLine : Str := "01/01/1970 - 10:00AM,Rent,-900,".toList

/-! ## Theorems -/


namespace F64

theorem unit_eq : unit = 2 ^ unitExp := by unfold unit; rfl

theorem overflowMag_eq : overflowMag = 2 ^ (unitExp + 1024) := by unfold overflowMag; rfl

theorem unit_pos : 0 < unit := by rw [unit_eq]; exact Nat.two_pow_pos _

theorem dropBits_spec (fuel n : Nat) : ∀ sh : Nat,
    n / 2 ^ (sh + fuel) < 2 ^ 53 → (sh = 0 ∨ 2 ^ (52 + sh) ≤ n) →
    n / 2 ^ (dropBits fuel n sh) < 2 ^ 53 ∧
      (dropBits fuel n sh = 0 ∨ 2 ^ (52 + dropBits fuel n sh) ≤ n) := by
  induction fuel with
  | zero => intro sh h1 h2; simpa [dropBits] using ⟨h1, h2⟩
  | succ f ih =>
    intro sh h1 h2
    unfold dropBits
    split
    · exact ⟨by assumption, h2⟩
    · rename_i hlt
      apply ih (sh + 1)
      · have : sh + 1 + f = sh + (f + 1) := by omega
        rw [this]; exact h1
      · right
        have h3 : 2 ^ 53 ≤ n / 2 ^ sh := Nat.le_of_not_lt hlt
        have h4 := (Nat.le_div_iff_mul_le (Nat.two_pow_pos sh)).mp h3
        have : 52 + (sh + 1) = 53 + sh := by omega
        rw [this, Nat.pow_add]; exact h4

theorem dropBits_self (n : Nat) :
    n / 2 ^ (dropBits n n 0) < 2 ^ 53 ∧
      (dropBits n n 0 = 0 ∨ 2 ^ (52 + dropBits n n 0) ≤ n) := by
  apply dropBits_spec n n 0
  · have h : n < 2 ^ n := Nat.lt_two_pow n
    rw [Nat.zero_add, Nat.div_eq_of_lt h]
    exact Nat.two_pow_pos 53
  · left; rfl

/-- A magnitude that is a multiple of `2^k` and at most `2^(53+k)` is a binary64 magnitude:
rounding leaves it unchanged. -/
theorem roundMag_exact (k n : Nat) (hdvd : 2 ^ k ∣ n) (hle : n ≤ 2 ^ (53 + k))
    (hk : 53 + k < unitExp + 1024) : roundMag n = some n := by
  obtain ⟨_, h2⟩ := dropBits_self n
  have hsh : 2 ^ (dropBits n n 0) ∣ n := by
    rcases h2 with h0 | hge
    · rw [h0]; simp
    · have hle2 : 2 ^ (52 + dropBits n n 0) ≤ 2 ^ (53 + k) := le_trans hge hle
      have hexp : 52 + dropBits n n 0 ≤ 53 + k :=
        (Nat.pow_le_pow_iff_right (by decide)).mp hle2
      by_cases hs : dropBits n n 0 ≤ k
      · exact dvd_trans (pow_dvd_pow 2 hs) hdvd
      · have hs1 : dropBits n n 0 = k + 1 := by omega
        rw [hs1] at hge ⊢
        have hn : n = 2 ^ (53 + k) := by
          have : 52 + (k + 1) = 53 + k := by omega
          rw [this] at hge
          exact le_antisymm hle hge
        rw [hn]
        exact pow_dvd_pow 2 (by omega)
  have hmod : n % 2 ^ (dropBits n n 0) = 0 := Nat.mod_eq_zero_of_dvd hsh
  have hlt : n < overflowMag := by
    rw [overflowMag_eq]
    exact lt_of_le_of_lt hle (Nat.pow_lt_pow_right (by decide) hk)
  have hpos : 0 < 2 ^ (dropBits n n 0) := Nat.two_pow_pos _
  unfold roundMag
  simp only [hmod, Nat.mul_zero]
  have hne : ¬ (2 ^ dropBits n n 0 < 0 ∨ (0 = 2 ^ dropBits n n 0 ∧ n / 2 ^ dropBits n n 0 % 2 = 1)) := by
    rintro (h | ⟨h, _⟩) <;> omega
  rw [if_neg hne, Nat.div_mul_cancel hsh, if_pos hlt]

theorem roundMag_whole (c : Nat) (hc : c ≤ 2 ^ 53) : roundMag (c * unit) = some (c * unit) := by
  apply roundMag_exact unitExp
  · rewrite [unit_eq]; exact Nat.dvd_mul_left _ _
  · rewrite [Nat.pow_add, unit_eq]; exact Nat.mul_le_mul_right _ hc
  · omega

/-- Two finite doubles whose exact sum is the whole number `c`, `|c| ≤ 2^53`, add to the
double that holds `c`. -/
theorem add_fin_exact (s t : Bool) (m n : Nat) (c : Int)
    (h : signed s m + signed t n = c * (unit : Int)) (hc : c.natAbs ≤ 2 ^ 53)
    (hz : c = 0 → (s && t) = false) : add (fin s m) (fin t n) = ofInt c := by
  have hu : (0 : Int) < (unit : Int) := by exact_mod_cast unit_pos
  simp only [add, ofSigned, h, ofInt]
  by_cases hc0 : c = 0
  · subst hc0
    simp [hz rfl]
  · have hne : c * (unit : Int) ≠ 0 := mul_ne_zero hc0 (ne_of_gt hu)
    rw [if_neg hne]
    have habs : (c * (unit : Int)).natAbs = c.natAbs * unit := by
      rw [Int.natAbs_mul, Int.natAbs_ofNat]
    rw [habs, roundMag_whole _ hc]
    have hs : decide (c * (unit : Int) < 0) = decide (c < 0) := by
      congr 1
      apply propext
      constructor
      · intro hlt; by_contra hge; push_neg at hge
        have := mul_nonneg hge (le_of_lt hu); omega
      · intro hlt; exact mul_neg_of_neg_of_pos hlt hu
    simp [hs]

theorem signed_ofInt (z : Int) : signed (decide (z < 0)) (z.natAbs * unit) = z * (unit : Int) := by
  unfold signed
  by_cases h : z < 0
  · simp only [h, decide_True, if_true]
    push_cast
    rw [← Int.neg_mul]
    congr 1
    rw [abs_of_neg h]; omega
  · simp only [h, decide_False]
    push_cast
    congr 1
    rw [abs_of_nonneg (by omega)]

theorem add_ofInt (a b : Int) (h : (a + b).natAbs ≤ 2 ^ 53) :
    add (ofInt a) (ofInt b) = ofInt (a + b) := by
  unfold ofInt
  apply add_fin_exact
  · rw [signed_ofInt, signed_ofInt, Int.add_mul]
  · exact h
  · intro h0
    by_cases ha : a < 0
    · have : ¬ b < 0 := by omega
      simp [this]
    · simp [ha]

theorem sub_ofInt (a b : Int) (hb : 0 ≤ b) (h : (a - b).natAbs ≤ 2 ^ 53) :
    sub (ofInt a) (ofInt b) = ofInt (a - b) := by
  unfold sub ofInt neg
  apply add_fin_exact
  · rw [signed_ofInt]
    have : signed (!decide (b < 0)) (b.natAbs * unit) = -(b * (unit : Int)) := by
      have hb' : ¬ b < 0 := by omega
      simp only [hb', decide_False, Bool.not_false, signed, if_true]
      push_cast
      rw [abs_of_nonneg hb]
    rw [this]; ring
  · exact h
  · intro h0
    by_cases ha : a < 0
    · omega
    · simp [ha]

theorem abs_ofInt (z : Int) : abs (ofInt z) = ofInt (z.natAbs : Int) := by
  simp [abs, ofInt, Int.natAbs_abs]

theorem gtZero_ofInt (z : Int) : gtZero (ofInt z) = decide (0 < z) := by
  have hu := unit_pos
  by_cases h : 0 < z
  · have h1 : ¬ z < 0 := by omega
    have h2 : 0 < z.natAbs * unit := Nat.mul_pos (by omega) hu
    simp [gtZero, ofInt, h, h1, h2]
  · by_cases h1 : z < 0
    · simp [gtZero, ofInt, h, h1]
    · have : z = 0 := by omega
      subst this
      simp [gtZero, ofInt]

theorem ltZero_ofInt (z : Int) : ltZero (ofInt z) = decide (z < 0) := by
  have hu := unit_pos
  by_cases h1 : z < 0
  · have h2 : 0 < z.natAbs * unit := Nat.mul_pos (by omega) hu
    simp [ltZero, ofInt, h1, h2]
  · simp [ltZero, ofInt, h1]

end F64

/-! ### Sequences of `addTransaction` calls -/

theorem runAdds_cons (ft : FinanceTracker) (c : AddCall) (calls : List AddCall) :
    runAdds ft (c :: calls)
      = runAdds (addTransaction ft c.now c.description c.amount c.tags) calls := rfl

theorem runAdds_balance (calls : List AddCall) : ∀ ft : FinanceTracker,
    (runAdds ft calls).balance = (calls.map (fun c => c.amount)).foldl F64.add ft.balance := by
  induction calls with
  | nil => intro ft; rfl
  | cons c calls ih => intro ft; rw [runAdds_cons, ih]; rfl

theorem runAdds_transactions (calls : List AddCall) : ∀ ft : FinanceTracker,
    (runAdds ft calls).transactions = ft.transactions ++ calls.map AddCall.toTransaction := by
  induction calls with
  | nil => intro ft; simp [runAdds]
  | cons c calls ih =>
    intro ft
    rw [runAdds_cons, ih]
    simp [addTransaction, AddCall.toTransaction]

theorem getTotalAmount_amounts (ft : FinanceTracker) (p : F64 → Bool) :
    getTotalAmount ft (fun t => p t.amount)
      = (ft.transactions.map (fun t => t.amount)).foldl
          (fun total x => if p x then total.add x.abs else total) F64.zero := by
  unfold getTotalAmount
  rw [List.foldl_map]

theorem absSumIf_le (q : Int → Bool) (zs : List Int) :
    absSumIf q zs ≤ (zs.map Int.natAbs).sum := by
  induction zs with
  | nil => simp [absSumIf]
  | cons z zs ih =>
    unfold absSumIf
    simp only [List.map_cons, List.sum_cons]
    split <;> omega

theorem absSumIf_pos_sub_neg (zs : List Int) :
    (absSumIf (fun z => decide (0 < z)) zs : Int) - absSumIf (fun z => decide (z < 0)) zs
      = zs.sum := by
  induction zs with
  | nil => simp [absSumIf]
  | cons z zs ih =>
    simp only [absSumIf, List.sum_cons, decide_eq_true_eq]
    split <;> split <;> (try simp only [Nat.cast_add]) <;> omega

theorem natAbs_sum_le (zs : List Int) : zs.sum.natAbs ≤ (zs.map Int.natAbs).sum := by
  induction zs with
  | nil => simp
  | cons z zs ih =>
    simp only [List.sum_cons, List.map_cons]
    have := Int.natAbs_add_le z zs.sum
    omega

/-- The running balance over whole-number amounts is exact. -/
theorem foldl_add_whole (zs : List Int) : ∀ a : Int,
    a.natAbs + (zs.map Int.natAbs).sum ≤ 2 ^ 53 →
    (zs.map F64.ofInt).foldl F64.add (F64.ofInt a) = F64.ofInt (a + zs.sum) := by
  induction zs with
  | nil => intro a _; simp
  | cons z zs ih =>
    intro a h
    simp only [List.map_cons, List.sum_cons, List.foldl_cons] at h ⊢
    have h1 := Int.natAbs_add_le a z
    rw [F64.add_ofInt a z (by omega), ih (a + z) (by omega), Int.add_assoc]

/-- The filtered total of absolute values over whole-number amounts is exact. -/
theorem foldl_total_whole (p : F64 → Bool) (q : Int → Bool)
    (hpq : ∀ z, p (F64.ofInt z) = q z) (zs : List Int) : ∀ a : Int, 0 ≤ a →
    a.natAbs + (zs.map Int.natAbs).sum ≤ 2 ^ 53 →
    (zs.map F64.ofInt).foldl (fun total x => if p x then total.add x.abs else total)
        (F64.ofInt a) = F64.ofInt (a + (absSumIf q zs : Nat)) := by
  induction zs with
  | nil => intro a _ _; simp [absSumIf]
  | cons z zs ih =>
    intro a ha h
    simp only [List.map_cons, List.sum_cons, List.foldl_cons] at h ⊢
    rw [hpq z]
    unfold absSumIf
    cases hq : q z
    · simp only [Bool.false_eq_true, if_false]
      rw [ih a ha (by omega)]
    · simp only [if_true]
      rw [F64.abs_ofInt, F64.add_ofInt a _ (by omega), ih _ (by omega) (by omega)]
      rw [Nat.cast_add, Int.add_assoc]

/-- C1 (as amended): for every sequence of `addTransaction` calls on a fresh tracker whose
amounts are whole numbers with absolute values summing to at most `2^53` (so that no
double addition rounds), the incrementally maintained `balance` equals
`getTotalIncome() - getTotalExpenses()`. -/
theorem balance_eq_income_sub_expenses_whole (calls : List AddCall) (zs : List Int)
    (hamt : calls.map (fun c => c.amount) = zs.map F64.ofInt)
    (hbound : (zs.map Int.natAbs).sum ≤ 2 ^ 53) :
    (runAdds FinanceTracker.empty calls).balance
      = (getTotalIncome (runAdds FinanceTracker.empty calls)).sub
          (getTotalExpenses (runAdds FinanceTracker.empty calls)) := by
  have hts : (runAdds FinanceTracker.empty calls).transactions.map (fun t => t.amount)
      = zs.map F64.ofInt := by
    rw [runAdds_transactions, ← hamt]
    simp [FinanceTracker.empty, AddCall.toTransaction]
  have hzero : F64.zero = F64.ofInt 0 := by simp [F64.zero, F64.ofInt]
  have hP := absSumIf_le (fun z => decide (0 < z)) zs
  have hN := absSumIf_le (fun z => decide (z < 0)) zs
  have hN0 : (0 : Int) ≤ (absSumIf (fun z => decide (z < 0)) zs : Nat) := Int.natCast_nonneg _
  have hS := natAbs_sum_le zs
  have hd := absSumIf_pos_sub_neg zs
  have hinc : getTotalIncome (runAdds FinanceTracker.empty calls)
      = F64.ofInt ((absSumIf (fun z => decide (0 < z)) zs : Nat) : Int) := by
    unfold getTotalIncome
    rw [getTotalAmount_amounts _ F64.gtZero, hts, hzero,
      foldl_total_whole F64.gtZero _ F64.gtZero_ofInt zs 0 (le_refl 0) (by simpa using hbound)]
    simp
  have hexp : getTotalExpenses (runAdds FinanceTracker.empty calls)
      = F64.ofInt ((absSumIf (fun z => decide (z < 0)) zs : Nat) : Int) := by
    unfold getTotalExpenses
    rw [getTotalAmount_amounts _ F64.ltZero, hts, hzero,
      foldl_total_whole F64.ltZero _ F64.ltZero_ofInt zs 0 (le_refl 0) (by simpa using hbound)]
    simp
  rw [hinc, hexp, F64.sub_ofInt _ _ hN0 (by rw [hd]; omega), hd, runAdds_balance, hamt]
  show List.foldl F64.add F64.zero _ = _
  rw [hzero, foldl_add_whole zs 0 (by simpa using hbound)]
  simp

/-- C1 (witness): the amounts 1500 and -900. -/
theorem balance_eq_income_sub_expenses_whole_witness :
    (runAdds FinanceTracker.empty wholeCalls).balance
      = (getTotalIncome (runAdds FinanceTracker.empty wholeCalls)).sub
          (getTotalExpenses (runAdds FinanceTracker.empty wholeCalls)) :=
  balance_eq_income_sub_expenses_whole wholeCalls [1500, -900] (by rfl) (by decide)

/-- C1 (counterexample to the claim as stated): after `addTransaction` with the amounts
`2^53`, `-2^53` and `1` (all exactly representable doubles) the balance is `1.0` while
`getTotalIncome() - getTotalExpenses()` is `0.0`, because `2^53 + 1` rounds to `2^53`. -/
theorem balance_ne_income_sub_expenses :
    (∀ c ∈ roundingCalls, c.amount.valid) ∧
    (runAdds FinanceTracker.empty roundingCalls).balance = F64.ofInt 1 ∧
    (getTotalIncome (runAdds FinanceTracker.empty roundingCalls)).sub
        (getTotalExpenses (runAdds FinanceTracker.empty roundingCalls)) = F64.ofInt 0 ∧
    F64.eq (runAdds FinanceTracker.empty roundingCalls).balance
      ((getTotalIncome (runAdds FinanceTracker.empty roundingCalls)).sub
        (getTotalExpenses (runAdds FinanceTracker.empty roundingCalls))) = false := by
  decide!

/-! ### `addTagToTransaction` with an invalid index -/

/-- C4: for every ledger state, tag and index with `index < 0` or
`index >= transactions.size()`, `addTagToTransaction` throws `std::out_of_range` and leaves
the whole state as it was: the transaction sequence, the balance and the tag index (no
bucket is created or changed). -/
theorem addTagToTransaction_out_of_range (ft : FinanceTracker) (index : Int) (tag : Str)
    (h : index < 0 ∨ (ft.transactions.length : Int) ≤ index) :
    addTagToTransaction ft index tag = (ft, true) ∧
    (addTagToTransaction ft index tag).1.transactions = ft.transactions ∧
    (addTagToTransaction ft index tag).1.balance = ft.balance ∧
    ∀ g, bucket (addTagToTransaction ft index tag).1.categorizedTransactions g
          = bucket ft.categorizedTransactions g := by
  have hn : ¬ (0 ≤ index ∧ index < (ft.transactions.length : Int)) := by omega
  have e : addTagToTransaction ft index tag = (ft, true) := by
    unfold addTagToTransaction
    rw [dif_neg hn]
  rw [e]
  exact ⟨rfl, rfl, rfl, fun _ => rfl⟩

/-- C4 (witness): a sequence of length 2 and the index 5. -/
theorem addTagToTransaction_out_of_range_witness :
    addTagToTransaction (twoRows 0 60) 5 "x".toList = (twoRows 0 60, true) ∧
    (addTagToTransaction (twoRows 0 60) 5 "x".toList).1.transactions = (twoRows 0 60).transactions ∧
    (addTagToTransaction (twoRows 0 60) 5 "x".toList).1.balance = (twoRows 0 60).balance ∧
    ∀ g, bucket (addTagToTransaction (twoRows 0 60) 5 "x".toList).1.categorizedTransactions g
          = bucket (twoRows 0 60).categorizedTransactions g :=
  addTagToTransaction_out_of_range (twoRows 0 60) 5 "x".toList (Or.inr (by decide))

/-! ### `split` on the empty string -/

/-- C5 (as amended): for every delimiter, `split("", d)` is the empty list: the first
`getline` on an empty stream is false and no token is pushed. -/
theorem split_empty (d : Char) : split [] d = [] := rfl

/-- C5 (counterexample to the claim as stated): `split("", ';')` is not the one-element
list that holds the empty string. -/
theorem split_empty_ne_singleton : split "".toList ';' ≠ ["".toList] := by decide

/-! ### The running balance -/

theorem sumAmounts_append (ts : List Transaction) (t : Transaction) :
    sumAmounts (ts ++ [t]) = (sumAmounts ts).add t.amount := by
  simp [sumAmounts, List.foldl_append]

theorem sumAmounts_eq_of_amounts (ts us : List Transaction)
    (h : ts.map (fun t => t.amount) = us.map (fun t => t.amount)) :
    sumAmounts ts = sumAmounts us := by
  have e : ∀ l : List Transaction,
      sumAmounts l = (l.map (fun t => t.amount)).foldl F64.add F64.zero := by
    intro l; unfold sumAmounts; rw [List.foldl_map]
  rw [e, e, h]

theorem map_amount_set_addTag (ts : List Transaction) (i : Fin ts.length) (tag : Str) :
    (ts.set i ((ts.get i).addTag tag)).map (fun t => t.amount) = ts.map (fun t => t.amount) := by
  rw [List.map_set]
  apply List.ext_getElem
  · simp
  · intro n h1 h2
    rw [List.getElem_set]
    split
    · rename_i hin
      subst hin
      simp [Transaction.addTag]
    · rfl

theorem addTagToTransaction_balance (ft : FinanceTracker) (index : Int) (tag : Str) :
    (addTagToTransaction ft index tag).1.balance = ft.balance := by
  unfold addTagToTransaction
  split <;> rfl

theorem addTagToTransaction_amounts (ft : FinanceTracker) (index : Int) (tag : Str) :
    (addTagToTransaction ft index tag).1.transactions.map (fun t => t.amount)
      = ft.transactions.map (fun t => t.amount) := by
  unfold addTagToTransaction
  split
  · exact map_amount_set_addTag _ _ _
  · rfl

theorem loadLine_parsed (P : Platform) (ft : FinanceTracker) (line : Str) (t : Transaction)
    (h : decodeRow P line = RowOutcome.parsed t) :
    loadLine P ft line = some
      { balance := ft.balance.add t.amount
        transactions := ft.transactions ++ [t]
        categorizedTransactions := categorize ft.categorizedTransactions t t.tags } := by
  unfold loadLine; rw [h]

theorem loadLine_skipped (P : Platform) (ft : FinanceTracker) (line : Str)
    (h : decodeRow P line = RowOutcome.skipped ∨ decodeRow P line = RowOutcome.caught) :
    loadLine P ft line = some ft := by
  unfold loadLine; rcases h with h | h <;> rw [h]

/-- What a data line does to the state when the loop body is defined on it. -/
theorem loadLine_cases (P : Platform) (ft ft1 : FinanceTracker) (line : Str)
    (h : loadLine P ft line = some ft1) :
    (ft1 = ft ∧ acceptedRows P [line] = []) ∨
    ∃ t, decodeRow P line = RowOutcome.parsed t ∧ acceptedRows P [line] = [t] ∧
      ft1 = { balance := ft.balance.add t.amount
              transactions := ft.transactions ++ [t]
              categorizedTransactions := categorize ft.categorizedTransactions t t.tags } := by
  unfold loadLine at h
  cases hd : decodeRow P line with
  | skipped => rw [hd] at h; left; simp_all [acceptedRows]
  | caught => rw [hd] at h; left; simp_all [acceptedRows]
  | undefined => rw [hd] at h; simp at h
  | parsed t =>
    rw [hd] at h
    right
    refine ⟨t, rfl, by simp [acceptedRows, hd], ?_⟩
    simpa using h.symm

theorem acceptedRows_cons (P : Platform) (line : Str) (lines : List Str) :
    acceptedRows P (line :: lines) = acceptedRows P [line] ++ acceptedRows P lines := by
  unfold acceptedRows
  rw [← List.filterMap_append]
  rfl

/-- The line loop appends the accepted rows and keeps the balance in step with them. -/
theorem loadLines_spec (P : Platform) (lines : List Str) : ∀ ft ft1 : FinanceTracker,
    loadLines P ft lines = some ft1 →
    ft1.transactions = ft.transactions ++ acceptedRows P lines ∧
    (ft.balance = sumAmounts ft.transactions → ft1.balance = sumAmounts ft1.transactions) := by
  induction lines with
  | nil =>
    intro ft ft1 h
    simp only [loadLines, Option.some.injEq] at h
    subst h
    simp [acceptedRows]
  | cons line lines ih =>
    intro ft ft1 h
    unfold loadLines at h
    cases h1 : loadLine P ft line with
    | none => rw [h1] at h; simp at h
    | some ft2 =>
      rw [h1] at h
      simp only at h
      obtain ⟨ht, hb⟩ := ih ft2 ft1 h
      rcases loadLine_cases P ft ft2 line h1 with ⟨e, ha⟩ | ⟨t, _, ha, e⟩
      · subst e
        rw [acceptedRows_cons, ha]
        exact ⟨by simpa using ht, hb⟩
      · rw [acceptedRows_cons, ha]
        subst e
        refine ⟨by simpa using ht, fun h0 => hb ?_⟩
        simp only
        rw [sumAmounts_append, h0]

/-- C7: in every ledger state reachable from the fresh tracker by `addTransaction`,
`addTagToTransaction` (successful or throwing) and `loadTransactionsFromFile`, `balance` is
the sum of the amounts of the transactions in the main sequence (accumulated in sequence
order); and a load that returns yields exactly the accepted rows of the file, whatever the
state before it was, with the balance their sum. -/
theorem balance_is_sum_of_amounts (P : Platform) :
    (∀ s, Reachable P s → s.balance = sumAmounts s.transactions) ∧
    (∀ s content s', loadTransactionsFromFile P s (some content) = some s' →
      s'.transactions = acceptedRows P ((fileLines content).drop 1) ∧
      s'.balance = sumAmounts (acceptedRows P ((fileLines content).drop 1))) := by
  have hload : ∀ s content s', loadTransactionsFromFile P s (some content) = some s' →
      s'.transactions = acceptedRows P ((fileLines content).drop 1) ∧
      s'.balance = sumAmounts (acceptedRows P ((fileLines content).drop 1)) := by
    intro s content s' h
    unfold loadTransactionsFromFile at h
    obtain ⟨ht, hb⟩ := loadLines_spec P _ _ _ h
    have ht' : s'.transactions = acceptedRows P ((fileLines content).drop 1) := by
      simpa [FinanceTracker.empty] using ht
    refine ⟨ht', ?_⟩
    rw [← ht']
    exact hb rfl
  refine ⟨?_, hload⟩
  intro s hs
  induction hs with
  | empty => rfl
  | add s now description amount tags _ ih =>
    show s.balance.add amount = sumAmounts (s.transactions ++ [_])
    rw [sumAmounts_append, ih]
  | addTag s index tag _ ih =>
    rw [addTagToTransaction_balance, ih]
    exact sumAmounts_eq_of_amounts _ _ (addTagToTransaction_amounts s index tag).symm
  | load s file s' _ hl _ =>
    cases file with
    | none =>
      simp only [loadTransactionsFromFile, Option.some.injEq] at hl
      subst hl; rfl
    | some content =>
      obtain ⟨ht, hb⟩ := hload s content s' hl
      rw [hb, ht]

theorem sampleDoc_loads :
    loadTransactionsFromFile refPlatform FinanceTracker.empty (some sampleDoc)
      = some sampleLoaded := by decide!

/-- C7 (witness): the two-transaction tracker is reachable, and `sampleDoc` loads. -/
theorem balance_is_sum_of_amounts_witness :
    (twoRows 0 60).balance = sumAmounts (twoRows 0 60).transactions ∧
    (sampleLoaded.transactions = acceptedRows refPlatform ((fileLines sampleDoc).drop 1) ∧
      sampleLoaded.balance = sumAmounts (acceptedRows refPlatform ((fileLines sampleDoc).drop 1))) :=
  ⟨(balance_is_sum_of_amounts refPlatform).1 _
      (Reachable.add _ _ _ _ _ (Reachable.add _ _ _ _ _ Reachable.empty)),
    (balance_is_sum_of_amounts refPlatform).2 FinanceTracker.empty sampleDoc sampleLoaded
      sampleDoc_loads⟩

/-! ### The tag index -/

theorem bucket_bucketPush_same (m : TagMap) (tag : Str) (t : Transaction) :
    bucket (bucketPush m tag t) tag = some ((bucket m tag).getD [] ++ [t]) := by
  induction m with
  | nil => simp [bucket, bucketPush]
  | cons kv m ih =>
    obtain ⟨k, v⟩ := kv
    unfold bucketPush
    by_cases h : k = tag
    · simp [h, bucket]
    · simp [h, bucket, ih]

theorem bucket_bucketPush_other (m : TagMap) (tag g : Str) (t : Transaction) (hne : g ≠ tag) :
    bucket (bucketPush m tag t) g = bucket m g := by
  have hne' : ¬ tag = g := fun h => hne h.symm
  induction m with
  | nil => simp [bucket, bucketPush, hne']
  | cons kv m ih =>
    obtain ⟨k, v⟩ := kv
    unfold bucketPush
    by_cases h : k = tag
    · subst h
      simp [bucket, hne']
    · rw [if_neg h]
      by_cases hg : k = g
      · simp [hg, bucket]
      · simp [hg, bucket, ih]

/-- Pushing into a bucket keeps every entry of every bucket. -/
theorem bucketPush_keeps (m : TagMap) (tag g : Str) (t e : Transaction) (b : List Transaction)
    (hb : bucket m g = some b) (he : e ∈ b) :
    ∃ b', bucket (bucketPush m tag t) g = some b' ∧ e ∈ b' := by
  by_cases h : g = tag
  · subst h
    rw [bucket_bucketPush_same, hb]
    exact ⟨_, rfl, by simp [he]⟩
  · rw [bucket_bucketPush_other m tag g t h]
    exact ⟨b, hb, he⟩

theorem categorize_keeps (t : Transaction) (tags : List Str) : ∀ (m : TagMap) (g : Str)
    (e : Transaction) (b : List Transaction), bucket m g = some b → e ∈ b →
    ∃ b', bucket (categorize m t tags) g = some b' ∧ e ∈ b' := by
  induction tags with
  | nil => intro m g e b hb he; exact ⟨b, hb, he⟩
  | cons tag tags ih =>
    intro m g e b hb he
    obtain ⟨b1, hb1, he1⟩ := bucketPush_keeps m tag g t e b hb he
    exact ih (bucketPush m tag t) g e b1 hb1 he1

theorem categorize_contains (t : Transaction) (tags : List Str) : ∀ (m : TagMap) (g : Str),
    g ∈ tags → ∃ b, bucket (categorize m t tags) g = some b ∧ t ∈ b := by
  induction tags with
  | nil => intro m g hg; simp at hg
  | cons tag tags ih =>
    intro m g hg
    rcases List.mem_cons.mp hg with h | h
    · subst h
      exact categorize_keeps t tags (bucketPush m g t) g t _ (bucket_bucketPush_same m g t)
        (by simp)
    · exact ih (bucketPush m tag t) g h

theorem isSnapshotOf_refl (t : Transaction) : IsSnapshotOf t t :=
  ⟨rfl, rfl, rfl, List.prefix_refl _⟩

theorem isSnapshotOf_addTag (e t : Transaction) (tag : Str) (h : IsSnapshotOf e t) :
    IsSnapshotOf e (t.addTag tag) := by
  obtain ⟨h1, h2, h3, h4⟩ := h
  exact ⟨h1, h2, h3, h4.trans (List.prefix_append _ _)⟩

/-- Appending a transaction and categorising it keeps the snapshot property. -/
theorem tagIndexSnapshots_append (s : FinanceTracker) (t : Transaction) (b0 : F64)
    (h : TagIndexSnapshots s) :
    TagIndexSnapshots
      { balance := b0
        transactions := s.transactions ++ [t]
        categorizedTransactions := categorize s.categorizedTransactions t t.tags } := by
  intro u hu g hg
  simp only [List.mem_append, List.mem_singleton] at hu
  rcases hu with hu | hu
  · obtain ⟨b, hb, e, he, hs, hge⟩ := h u hu g hg
    obtain ⟨b', hb', he'⟩ := categorize_keeps t t.tags _ g e b hb he
    exact ⟨b', hb', e, he', hs, hge⟩
  · subst hu
    obtain ⟨b, hb, hu⟩ := categorize_contains u u.tags s.categorizedTransactions g hg
    exact ⟨b, hb, u, hu, isSnapshotOf_refl u, hg⟩

theorem tagIndexSnapshots_addTag (s : FinanceTracker) (index : Int) (tag : Str)
    (h : TagIndexSnapshots s) : TagIndexSnapshots (addTagToTransaction s index tag).1 := by
  unfold addTagToTransaction
  split
  · rename_i hidx
    intro u hu g hg
    simp only at hu hg ⊢
    rcases List.mem_or_eq_of_mem_set hu with hu | hu
    · obtain ⟨b, hb, e, he, hs, hge⟩ := h u hu g hg
      obtain ⟨b', hb', he'⟩ := bucketPush_keeps _ tag g _ e b hb he
      exact ⟨b', hb', e, he', hs, hge⟩
    · subst hu
      simp only [Transaction.addTag, List.mem_append, List.mem_singleton] at hg
      rcases hg with hg | hg
      · have hmem : s.transactions.get ⟨index.toNat, by omega⟩ ∈ s.transactions :=
          List.get_mem _ _ _
        obtain ⟨b, hb, e, he, hs, hge⟩ := h _ hmem g hg
        obtain ⟨b', hb', he'⟩ := bucketPush_keeps _ tag g
          ((s.transactions.get ⟨index.toNat, by omega⟩).addTag tag) e b hb he
        exact ⟨b', hb', e, he', isSnapshotOf_addTag _ _ tag hs, hge⟩
      · subst hg
        refine ⟨_, bucket_bucketPush_same _ _ _, _, by simp, isSnapshotOf_refl _, ?_⟩
        simp [Transaction.addTag]
  · exact h

theorem tagIndexSnapshots_loadLines (P : Platform) (lines : List Str) :
    ∀ ft ft1 : FinanceTracker, loadLines P ft lines = some ft1 →
      TagIndexSnapshots ft → TagIndexSnapshots ft1 := by
  induction lines with
  | nil =>
    intro ft ft1 h hi
    simp only [loadLines, Option.some.injEq] at h
    subst h; exact hi
  | cons line lines ih =>
    intro ft ft1 h hi
    unfold loadLines at h
    cases h1 : loadLine P ft line with
    | none => rw [h1] at h; simp at h
    | some ft2 =>
      rw [h1] at h
      simp only at h
      apply ih ft2 ft1 h
      rcases loadLine_cases P ft ft2 line h1 with ⟨e, _⟩ | ⟨t, _, _, e⟩
      · subst e; exact hi
      · subst e; exact tagIndexSnapshots_append ft t _ hi

/-- C6 (as amended): in every ledger state reachable from the fresh tracker by
`addTransaction`, `addTagToTransaction` (successful or throwing) and
`loadTransactionsFromFile`, for every transaction `t` of the main sequence and every tag
`g` of `t`, `categorizedTransactions` has a bucket for `g` and the bucket contains a
snapshot of `t` that carries `g`: an entry equal to `t` in description, amount and
timestamp whose tag list is a prefix of `t`'s current tag list. -/
theorem tag_index_holds_snapshots (P : Platform) (s : FinanceTracker) (hs : Reachable P s) :
    TagIndexSnapshots s := by
  induction hs with
  | empty => intro t ht; simp [FinanceTracker.empty] at ht
  | add s now description amount tags _ ih =>
    exact tagIndexSnapshots_append s
      { description := description, amount := amount, timestamp := now, tags := tags } _ ih
  | addTag s index tag _ ih => exact tagIndexSnapshots_addTag s index tag ih
  | load s file s' _ hl _ =>
    cases file with
    | none =>
      simp only [loadTransactionsFromFile, Option.some.injEq] at hl
      subst hl
      intro t ht; simp [FinanceTracker.empty] at ht
    | some content =>
      unfold loadTransactionsFromFile at hl
      apply tagIndexSnapshots_loadLines P _ _ _ hl
      intro t ht; simp [FinanceTracker.empty] at ht

theorem staleState_reachable : Reachable refPlatform staleState :=
  Reachable.addTag _ _ _ (Reachable.add _ _ _ _ _ Reachable.empty)

/-- C6 (witness): the state with one transaction tagged `a` and then `b`. -/
theorem tag_index_holds_snapshots_witness : TagIndexSnapshots staleState :=
  tag_index_holds_snapshots refPlatform staleState staleState_reachable

/-- C6 (counterexample to the claim as stated): after `addTransaction("x", 1, ["a"])` and
`addTagToTransaction(0, "b")` the transaction has the tags `a`, `b`, but the bucket of `a`
holds only the copy made before `b` was added, so no entry of it equals the transaction
with its current tag list. -/
theorem tag_index_not_exact : Reachable refPlatform staleState ∧ ¬ TagIndexExact staleState := by
  refine ⟨staleState_reachable, ?_⟩
  intro h
  have hb : bucket staleState.categorizedTransactions "a".toList
      = some [{ description := "x".toList, amount := F64.ofInt 1, timestamp := 0,
                tags := ["a".toList] }] := by decide!
  obtain ⟨b, hb', hmem⟩ := h
    { description := "x".toList, amount := F64.ofInt 1, timestamp := 0,
      tags := ["a".toList, "b".toList] } (by decide!) "a".toList (by decide!)
  rw [hb] at hb'
  cases hb'
  revert hmem
  decide!

/-! ### Digits -/

theorem digitChar_isDigit (d : Nat) (h : d < 10) : (Nat.digitChar d).isDigit = true := by
  interval_cases d <;> decide

theorem digitChar_val (d : Nat) (h : d < 10) : (Nat.digitChar d).toNat - 48 = d := by
  interval_cases d <;> decide

theorem digitChar_not_space (d : Nat) (h : d < 10) : isSpace (Nat.digitChar d) = false := by
  interval_cases d <;> decide

theorem digitChar_ne (d : Nat) (h : d < 10) (c : Char) (hc : c.isDigit = false) :
    Nat.digitChar d ≠ c := by
  intro e
  rw [← e, digitChar_isDigit d h] at hc
  exact Bool.noConfusion hc

theorem natToDecAux_eq (fuel : Nat) : ∀ n acc, n < fuel →
    natToDecAux fuel n acc = natToDecAux (n + 1) n [] ++ acc := by
  induction fuel using Nat.strong_induction_on with
  | _ fuel ih =>
    intro n acc hn
    cases fuel with
    | zero => omega
    | succ f =>
      by_cases h10 : n < 10
      · simp [natToDecAux, h10]
      · have hdiv : n / 10 < n := Nat.div_lt_self (by omega) (by decide)
        have e1 : natToDecAux (f + 1) n acc
            = natToDecAux f (n / 10) (Nat.digitChar (n % 10) :: acc) := by
          simp [natToDecAux, h10]
        have e2 : natToDecAux (n + 1) n []
            = natToDecAux n (n / 10) [Nat.digitChar (n % 10)] := by
          simp [natToDecAux, h10]
        rw [e1, e2, ih f (by omega) (n / 10) _ (by omega), ih n (by omega) (n / 10) _ hdiv]
        simp

theorem natToDec_lt_ten (n : Nat) (h : n < 10) : natToDec n = [Nat.digitChar n] := by
  simp [natToDec, natToDecAux, h]

theorem natToDec_step (n : Nat) (h : 10 ≤ n) :
    natToDec n = natToDec (n / 10) ++ [Nat.digitChar (n % 10)] := by
  have h10 : ¬ n < 10 := by omega
  have hdiv : n / 10 < n := Nat.div_lt_self (by omega) (by decide)
  unfold natToDec
  have e2 : natToDecAux (n + 1) n []
      = natToDecAux n (n / 10) [Nat.digitChar (n % 10)] := by
    simp [natToDecAux, h10]
  rw [e2, natToDecAux_eq n (n / 10) _ hdiv]

theorem natToDec_two (n : Nat) (h1 : 10 ≤ n) (h2 : n < 100) :
    natToDec n = [Nat.digitChar (n / 10), Nat.digitChar (n % 10)] := by
  rw [natToDec_step n h1, natToDec_lt_ten (n / 10) (by omega)]
  rfl

theorem natToDec_four (n : Nat) (h1 : 1000 ≤ n) (h2 : n < 10000) :
    natToDec n = [Nat.digitChar (n / 1000), Nat.digitChar (n / 100 % 10),
      Nat.digitChar (n / 10 % 10), Nat.digitChar (n % 10)] := by
  rw [natToDec_step n (by omega), natToDec_step (n / 10) (by omega),
    natToDec_step (n / 10 / 10) (by omega), natToDec_lt_ten (n / 10 / 10 / 10) (by omega)]
  have e1 : n / 10 / 10 / 10 = n / 1000 := by omega
  have e2 : n / 10 / 10 % 10 = n / 100 % 10 := by omega
  rw [e1, e2]
  rfl

theorem natToDec_digits (n : Nat) : ∀ c ∈ natToDec n, c.isDigit = true := by
  induction n using Nat.strong_induction_on with
  | _ n ih =>
    by_cases h : n < 10
    · rw [natToDec_lt_ten n h]
      intro c hc
      rw [List.mem_singleton.mp hc]
      exact digitChar_isDigit n h
    · rw [natToDec_step n (by omega)]
      intro c hc
      rcases List.mem_append.mp hc with hc | hc
      · exact ih (n / 10) (Nat.div_lt_self (by omega) (by decide)) c hc
      · rw [List.mem_singleton.mp hc]
        exact digitChar_isDigit _ (Nat.mod_lt _ (by decide))

theorem natToDec_ne_nil (n : Nat) : natToDec n ≠ [] := by
  by_cases h : n < 10
  · rw [natToDec_lt_ten n h]; simp
  · rw [natToDec_step n (by omega)]; simp

theorem decValue_append (ds : Str) (c : Char) :
    decValue (ds ++ [c]) = decValue ds * 10 + (c.toNat - 48) := by
  simp [decValue, List.foldl_append]

theorem decValue_natToDec (n : Nat) : decValue (natToDec n) = n := by
  induction n using Nat.strong_induction_on with
  | _ n ih =>
    by_cases h : n < 10
    · rw [natToDec_lt_ten n h]
      simp [decValue, digitChar_val n h]
    · rw [natToDec_step n (by omega), decValue_append,
        ih (n / 10) (Nat.div_lt_self (by omega) (by decide)),
        digitChar_val _ (Nat.mod_lt _ (by decide))]
      omega

theorem natToDec_length_le (n : Nat) (h : n < 10000) : (natToDec n).length ≤ 4 := by
  by_cases h1 : n < 10
  · rw [natToDec_lt_ten n h1]; simp
  · rw [natToDec_step n (by omega)]
    by_cases h2 : n / 10 < 10
    · rw [natToDec_lt_ten _ h2]; simp
    · rw [natToDec_step _ (by omega)]
      by_cases h3 : n / 10 / 10 < 10
      · rw [natToDec_lt_ten _ h3]; simp
      · rw [natToDec_step _ (by omega), natToDec_lt_ten (n / 10 / 10 / 10) (by omega)]; simp

theorem intToDec_ofNat (n : Nat) : intToDec (n : Int) = natToDec n := by
  unfold intToDec
  have : ¬ ((n : Int) < 0) := by omega
  simp [this]

/-- Two characters for a number below 100: `setw(2)` with fill `'0'`. -/
theorem put2_ofNat (n : Nat) (h : n < 100) :
    put2 (n : Int) = [Nat.digitChar (n / 10), Nat.digitChar (n % 10)] := by
  unfold put2
  rw [intToDec_ofNat]
  by_cases h1 : n < 10
  · rw [natToDec_lt_ten n h1]
    have e1 : n / 10 = 0 := by omega
    have e2 : n % 10 = n := by omega
    rw [e1, e2]
    rfl
  · rw [natToDec_two n (by omega) h]
    rfl

/-! ### Extractions on digit texts -/

theorem isDigit_not_space (c : Char) (h : c.isDigit = true) : isSpace c = false := by
  by_contra hs
  have hs' : isSpace c = true := by simpa using hs
  simp only [isSpace, Bool.or_eq_true, decide_eq_true_eq] at hs'
  rcases hs' with ((((hs' | hs') | hs') | hs') | hs') | hs' <;> subst hs' <;>
    exact absurd h (by decide)

theorem skipWs_of_not_space (c : Char) (cs : Str) (h : isSpace c = false) :
    skipWs (c :: cs) = c :: cs := by
  simp [skipWs, h]

theorem foldl_digits_le (ds : Str) : ∀ v : Nat,
    v ≤ ds.foldl (fun acc c => acc * 10 + (c.toNat - 48)) v := by
  induction ds with
  | nil => intro v; simp
  | cons d ds ih =>
    intro v
    simp only [List.foldl_cons]
    exact le_trans (by omega) (ih (v * 10 + (d.toNat - 48)))

/-- The loop of `_M_extract_num` on a run of digits that fits the length and the maximum
reads the whole run. -/
theorem extractNumLoop_digits (max : Nat) (rest : Str)
    (hrest : ∀ c cs, rest = c :: cs → c.isDigit = false) (ds : Str) :
    ∀ (len i v : Nat), (∀ c ∈ ds, c.isDigit = true) → ds.length ≤ len →
      ds.foldl (fun acc c => acc * 10 + (c.toNat - 48)) v ≤ max →
      extractNumLoop max len (ds ++ rest) i v
        = (rest, i + ds.length, ds.foldl (fun acc c => acc * 10 + (c.toNat - 48)) v) := by
  induction ds with
  | nil =>
    intro len i v _ _ _
    cases len with
    | zero => simp [extractNumLoop]
    | succ l =>
      cases hr : rest with
      | nil => simp [extractNumLoop]
      | cons c cs => simp [extractNumLoop, hrest c cs hr]
  | cons d ds ih =>
    intro len i v hd hlen hmax
    cases len with
    | zero => simp at hlen
    | succ l =>
      have hdd : d.isDigit = true := hd d (by simp)
      simp only [List.foldl_cons] at hmax
      have hle := foldl_digits_le ds (v * 10 + (d.toNat - 48))
      have hnot : ¬ (v * 10 + (d.toNat - 48) > max) := by omega
      simp only [List.cons_append, extractNumLoop, hdd, if_true, hnot, if_false, List.foldl_cons,
        List.append_eq]
      rw [ih l (i + 1) _ (fun c hc => hd c (by simp [hc])) (by simpa using hlen) hmax]
      simp only [List.length_cons]
      congr 2
      omega

theorem extractNum_digits (min max len : Nat) (ds rest : Str)
    (hrest : ∀ c cs, rest = c :: cs → c.isDigit = false)
    (hd : ∀ c ∈ ds, c.isDigit = true) (hne : ds ≠ []) (hlen : ds.length ≤ len)
    (hmin : min ≤ decValue ds) (hmax : decValue ds ≤ max) :
    extractNum min max len (ds ++ rest) = (rest, some (decValue ds)) := by
  unfold extractNum
  rw [extractNumLoop_digits max rest hrest ds len 0 0 hd hlen hmax]
  have hpos : 0 < ds.length := List.length_pos.mpr hne
  have hc : 0 < 0 + ds.length ∧ min ≤ decValue ds ∧ decValue ds ≤ max := ⟨by omega, hmin, hmax⟩
  simp only [decValue] at hc ⊢
  rw [if_pos hc]

theorem spanDigits_digits (rest : Str) (hrest : ∀ c cs, rest = c :: cs → c.isDigit = false)
    (ds : Str) (hd : ∀ c ∈ ds, c.isDigit = true) : spanDigits (ds ++ rest) = (ds, rest) := by
  induction ds with
  | nil =>
    cases hr : rest with
    | nil => simp [spanDigits]
    | cons c cs => simp [spanDigits, hrest c cs hr]
  | cons d ds ih =>
    have hdd : d.isDigit = true := hd d (by simp)
    simp [spanDigits, hdd, ih (fun c hc => hd c (by simp [hc]))]

/-- The extraction of an `int` from a run of digits that something else follows. -/
theorem extractInt_digits (d : Char) (ds : Str) (c : Char) (cs : Str)
    (hd : ∀ x ∈ d :: ds, x.isDigit = true) (hc : c.isDigit = false)
    (hv : decValue (d :: ds) ≤ 2147483647) :
    extractInt (d :: ds ++ c :: cs) = some ((decValue (d :: ds) : Int), c :: cs) := by
  have hdd : d.isDigit = true := hd d (by simp)
  have h1 : d ≠ '-' := by intro e; rw [e] at hdd; exact absurd hdd (by decide)
  have h2 : d ≠ '+' := by intro e; rw [e] at hdd; exact absurd hdd (by decide)
  have hsp := spanDigits_digits (c :: cs) (fun x xs e => by cases e; exact hc) (d :: ds) hd
  unfold extractInt
  rw [List.cons_append, skipWs_of_not_space d _ (isDigit_not_space d hdd)]
  simp only [h1, h2, or_self, if_false, decide_False, Bool.false_eq_true]
  rw [← List.cons_append, hsp]
  have hcond : ¬ (d :: ds = [] ∨ c :: cs = [] ∨ ((decValue (d :: ds) : Nat) : Int) < -2147483648
      ∨ (2147483647 : Int) < ((decValue (d :: ds) : Nat) : Int)) := by
    rintro (h | h | h | h)
    · simp at h
    · simp at h
    · omega
    · omega
  rw [if_neg hcond]

/-- The extraction `get_time("%m/%d/%Y")` on month digits, `/`, day digits, `/`, year
digits and a rest that starts with something else than a digit. -/
theorem getTime_digits (m : Char) (ms : Str) (d : Char) (ds : Str) (y : Char) (ys : Str)
    (c : Char) (cs : Str)
    (hm : ∀ x ∈ m :: ms, x.isDigit = true) (hd : ∀ x ∈ d :: ds, x.isDigit = true)
    (hy : ∀ x ∈ y :: ys, x.isDigit = true) (hc : c.isDigit = false)
    (hml : (m :: ms).length ≤ 2) (hdl : (d :: ds).length ≤ 2) (hyl : (y :: ys).length ≤ 4)
    (hmv : 1 ≤ decValue (m :: ms) ∧ decValue (m :: ms) ≤ 12)
    (hdv : 1 ≤ decValue (d :: ds) ∧ decValue (d :: ds) ≤ 31)
    (hyv : decValue (y :: ys) ≤ 9999) :
    getTime (m :: (ms ++ '/' :: d :: (ds ++ '/' :: y :: (ys ++ c :: cs))))
      = some (((decValue (m :: ms) : Int) - 1, (decValue (d :: ds) : Int),
          (decValue (y :: ys) : Int) - 1900), c :: cs) := by
  have hslash : ∀ (x : Char) (xs rest : Str), '/' :: rest = x :: xs → x.isDigit = false := by
    intro x xs rest e; cases e; decide
  have e1 : extractNum 1 12 2 (m :: (ms ++ '/' :: d :: (ds ++ '/' :: y :: (ys ++ c :: cs))))
      = ('/' :: d :: (ds ++ '/' :: y :: (ys ++ c :: cs)), some (decValue (m :: ms))) :=
    extractNum_digits 1 12 2 (m :: ms) _ (fun x xs e => hslash x xs _ e) hm (by simp) hml
      hmv.1 hmv.2
  have e2 : extractNum 1 31 2 (d :: (ds ++ '/' :: y :: (ys ++ c :: cs)))
      = ('/' :: y :: (ys ++ c :: cs), some (decValue (d :: ds))) :=
    extractNum_digits 1 31 2 (d :: ds) _ (fun x xs e => hslash x xs _ e) hd (by simp) hdl
      hdv.1 hdv.2
  have e3 : extractNum 0 9999 4 (y :: (ys ++ c :: cs)) = (c :: cs, some (decValue (y :: ys))) :=
    extractNum_digits 0 9999 4 (y :: ys) (c :: cs) (fun x xs e => by cases e; exact hc) hy
      (by simp) hyl (Nat.zero_le _) hyv
  have hmd : m.isDigit = true := hm m (by simp)
  have hdd : d.isDigit = true := hd d (by simp)
  simp only [getTime, skipWs_of_not_space m _ (isDigit_not_space m hmd), e1, ne_eq,
    not_true_eq_false, if_false, isDigit_not_space d hdd, Bool.false_eq_true, e2, e3]

/-! ### `formatDateTime` and `parseDateTime` -/

theorem decValue_two (a b : Nat) (ha : a < 10) (hb : b < 10) :
    decValue [Nat.digitChar a, Nat.digitChar b] = a * 10 + b := by
  simp [decValue, digitChar_val a ha, digitChar_val b hb]

theorem hour12_range (hour : Int) (h0 : 0 ≤ hour) (h1 : hour ≤ 23) :
    1 ≤ hour12 hour ∧ hour12 hour ≤ 12 ∧ (hour = 0 ∨ hour = 12 → hour12 hour = 12) ∧
      (0 < hour → hour < 12 → hour12 hour = hour) ∧
      (12 < hour → hour12 hour = hour - 12) := by
  have hm : Int.tmod hour 12 = hour % 12 := Int.tmod_eq_emod h0 (by decide)
  unfold hour12
  rw [hm]
  refine ⟨?_, ?_, ?_, ?_, ?_⟩
  · split <;> omega
  · split <;> omega
  · intro h; split <;> omega
  · intro h2 h3; split <;> omega
  · intro h2; split <;> omega

/-- The text of `formatDateTime` for a broken-down time in the standard ranges and a year
that is not negative. -/
theorem formatTm_text (tm : Tm) (h : tm.inRange) (hy : 0 ≤ tm.year + 1900) :
    formatTm tm
      = Nat.digitChar ((tm.mon + 1).toNat / 10) :: Nat.digitChar ((tm.mon + 1).toNat % 10) :: '/'
        :: Nat.digitChar (tm.mday.toNat / 10) :: Nat.digitChar (tm.mday.toNat % 10) :: '/'
        :: (natToDec (tm.year + 1900).toNat
          ++ [' ', '-', ' ', Nat.digitChar ((hour12 tm.hour).toNat / 10),
              Nat.digitChar ((hour12 tm.hour).toNat % 10), ':',
              Nat.digitChar (tm.min.toNat / 10), Nat.digitChar (tm.min.toNat % 10),
              (if tm.hour < 12 then 'A' else 'P'), 'M']) := by
  obtain ⟨h1, h2, h3, h4, h5, h6, h7, h8⟩ := h
  obtain ⟨g1, g2, _, _, _⟩ := hour12_range tm.hour h3 h4
  have emon : tm.mon + 1 = ((tm.mon + 1).toNat : Int) := (Int.toNat_of_nonneg (by omega)).symm
  have eday : tm.mday = (tm.mday.toNat : Int) := (Int.toNat_of_nonneg (by omega)).symm
  have eyear : tm.year + 1900 = ((tm.year + 1900).toNat : Int) := (Int.toNat_of_nonneg hy).symm
  have ehour : hour12 tm.hour = ((hour12 tm.hour).toNat : Int) :=
    (Int.toNat_of_nonneg (by omega)).symm
  have emin : tm.min = (tm.min.toNat : Int) := (Int.toNat_of_nonneg h1).symm
  have p1 := put2_ofNat (tm.mon + 1).toNat (by omega)
  have p2 := put2_ofNat tm.mday.toNat (by omega)
  have p3 := intToDec_ofNat (tm.year + 1900).toNat
  have p4 := put2_ofNat (hour12 tm.hour).toNat (by omega)
  have p5 := put2_ofNat tm.min.toNat (by omega)
  rw [← emon] at p1
  rw [← eday] at p2
  rw [← eyear] at p3
  rw [← ehour] at p4
  rw [← emin] at p5
  have e : formatTm tm = put2 (tm.mon + 1) ++ "/".toList ++ put2 tm.mday ++ "/".toList
      ++ intToDec (tm.year + 1900) ++ " - ".toList ++ put2 (hour12 tm.hour) ++ ":".toList
      ++ put2 tm.min ++ (if tm.hour < 12 then "AM".toList else "PM".toList) := rfl
  rw [e, p1, p2, p3, p4, p5]
  have hap : (if tm.hour < 12 then "AM".toList else "PM".toList)
      = [(if tm.hour < 12 then 'A' else 'P'), 'M'] := by
    split <;> rfl
  rw [hap]
  simp

theorem extractInt_space (s : Str) : extractInt (' ' :: s) = extractInt s := by
  simp [extractInt, skipWs, isSpace]

/-- Reading back the text printed for a broken-down time in the standard ranges with a
year in 0..9999: every extraction succeeds, the one character stored in `meridian` matches
neither `"AM"` nor `"PM"`, and `mktime` receives the printed fields with the hour of the
12-hour clock. -/
theorem readDateTime_formatTm (tm : Tm) (h : tm.inRange)
    (hy : 0 ≤ tm.year + 1900 ∧ tm.year + 1900 ≤ 9999) :
    readDateTime (formatTm tm) = some tm.reread := by
  have hr := h
  obtain ⟨h1, h2, h3, h4, h5, h6, h7, h8⟩ := h
  obtain ⟨g1, g2, _, _, _⟩ := hour12_range tm.hour h3 h4
  rw [formatTm_text tm hr hy.1]
  have hyne := natToDec_ne_nil (tm.year + 1900).toNat
  have hyd := natToDec_digits (tm.year + 1900).toNat
  have hyl := natToDec_length_le (tm.year + 1900).toNat (by omega)
  have hyv := decValue_natToDec (tm.year + 1900).toNat
  generalize hY : natToDec (tm.year + 1900).toNat = Y at hyne hyd hyl hyv
  cases Y with
  | nil => exact absurd rfl hyne
  | cons y ys =>
    have dg : ∀ n : Nat, n < 100 → ∀ x ∈ [Nat.digitChar (n / 10), Nat.digitChar (n % 10)],
        x.isDigit = true := by
      intro n hn x hx
      simp only [List.mem_cons, List.mem_singleton, List.not_mem_nil, or_false] at hx
      rcases hx with hx | hx <;> subst hx
      · exact digitChar_isDigit _ (by omega)
      · exact digitChar_isDigit _ (by omega)
    have dv : ∀ n : Nat, n < 100 →
        decValue [Nat.digitChar (n / 10), Nat.digitChar (n % 10)] = n := by
      intro n hn
      rw [decValue_two _ _ (by omega) (by omega)]; omega
    have hap : ∀ b : Prop, [Decidable b] → ((if b then 'A' else 'P').isDigit = false ∧
        isSpace (if b then 'A' else 'P') = false ∧
        [(if b then 'A' else 'P')] ≠ "PM".toList ∧ [(if b then 'A' else 'P')] ≠ "AM".toList) := by
      intro b _
      by_cases hb : b <;> simp [hb] <;> decide
    obtain ⟨a1, a2, a3, a4⟩ := hap (tm.hour < 12)
    have eg := getTime_digits (Nat.digitChar ((tm.mon + 1).toNat / 10))
      [Nat.digitChar ((tm.mon + 1).toNat % 10)]
      (Nat.digitChar (tm.mday.toNat / 10)) [Nat.digitChar (tm.mday.toNat % 10)] y ys ' '
      ['-', ' ', Nat.digitChar ((hour12 tm.hour).toNat / 10),
        Nat.digitChar ((hour12 tm.hour).toNat % 10), ':',
        Nat.digitChar (tm.min.toNat / 10), Nat.digitChar (tm.min.toNat % 10),
        (if tm.hour < 12 then 'A' else 'P'), 'M']
      (dg _ (by omega)) (dg _ (by omega)) hyd (by decide) (by simp) (by simp) hyl
      (by rw [dv _ (by omega)]; omega) (by rw [dv _ (by omega)]; omega) (by rw [hyv]; omega)
    have eh := extractInt_digits (Nat.digitChar ((hour12 tm.hour).toNat / 10))
      [Nat.digitChar ((hour12 tm.hour).toNat % 10)] ':'
      [Nat.digitChar (tm.min.toNat / 10), Nat.digitChar (tm.min.toNat % 10),
        (if tm.hour < 12 then 'A' else 'P'), 'M']
      (dg _ (by omega)) (by decide) (by rw [dv _ (by omega)]; omega)
    have em := extractInt_digits (Nat.digitChar (tm.min.toNat / 10))
      [Nat.digitChar (tm.min.toNat % 10)] (if tm.hour < 12 then 'A' else 'P') ['M']
      (dg _ (by omega)) a1 (by rw [dv _ (by omega)]; omega)
    rw [dv _ (by omega)] at eh em
    rw [dv _ (by omega), dv _ (by omega), hyv] at eg
    simp only [List.singleton_append, List.cons_append, List.nil_append] at eg eh em
    have ec : extractChar (' ' :: '-' :: ' ' :: Nat.digitChar ((hour12 tm.hour).toNat / 10)
        :: Nat.digitChar ((hour12 tm.hour).toNat % 10) :: ':'
        :: Nat.digitChar (tm.min.toNat / 10) :: Nat.digitChar (tm.min.toNat % 10)
        :: (if tm.hour < 12 then 'A' else 'P') :: ['M'])
        = some ('-', ' ' :: Nat.digitChar ((hour12 tm.hour).toNat / 10)
        :: Nat.digitChar ((hour12 tm.hour).toNat % 10) :: ':'
        :: Nat.digitChar (tm.min.toNat / 10) :: Nat.digitChar (tm.min.toNat % 10)
        :: (if tm.hour < 12 then 'A' else 'P') :: ['M']) := by
      simp [extractChar, skipWs, isSpace]
    have ew : extractCStr 2 ((if tm.hour < 12 then 'A' else 'P') :: ['M'])
        = some ([(if tm.hour < 12 then 'A' else 'P')], ['M']) := by
      simp [extractCStr, skipWs, a2, takeWord]
    unfold readDateTime
    simp only [List.cons_append, List.nil_append]
    rw [eg]
    simp only [ec, extractInt_space, eh, ignore, em, ew, a3, a4, false_and, if_false]
    simp only [Tm.reread, Option.some.injEq, Tm.mk.injEq, true_and]
    refine ⟨Int.toNat_of_nonneg h1, Int.toNat_of_nonneg (by omega),
      Int.toNat_of_nonneg (by omega), ?_, ?_⟩
    · rw [Int.toNat_of_nonneg (by omega)]; omega
    · rw [Int.toNat_of_nonneg hy.1]; exact ⟨by omega, trivial⟩

/-- What `parseDateTime` returns for the text that `formatDateTime` prints: the result of
`mktime` on the re-read fields. -/
theorem parseDateTime_formatTm (P : Platform) (tm : Tm) (h : tm.inRange)
    (hy : 0 ≤ tm.year + 1900 ∧ tm.year + 1900 ≤ 9999) :
    parseDateTime P (formatTm tm)
      = if P.mktime tm.reread = -1 then ParseOutcome.runtimeError
        else ParseOutcome.value (P.mktime tm.reread) := by
  unfold parseDateTime
  rw [readDateTime_formatTm tm h hy]

/-- Where reading back does recover the time: for every timestamp whose broken-down local
time lies in the standard ranges with a year in 0..9999 and an hour in 1..12,
`parseDateTime` reads the text of `formatDateTime` back into the same month, day, year,
hour and minute with seconds 0; and it returns the timestamp itself when `mktime` maps
these fields to it. -/
theorem parse_format_morning (P : Platform) (timestamp : Int) (tm : Tm)
    (hl : P.localtime timestamp = some tm) (hr : tm.inRange)
    (hy : 0 ≤ tm.year + 1900 ∧ tm.year + 1900 ≤ 9999) (hh : 1 ≤ tm.hour ∧ tm.hour ≤ 12) :
    ∃ text, formatDateTime P timestamp = some text ∧
      readDateTime text
        = some { sec := 0, min := tm.min, hour := tm.hour, mday := tm.mday, mon := tm.mon,
                 year := tm.year, isdst := 0 } ∧
      (P.mktime { sec := 0, min := tm.min, hour := tm.hour, mday := tm.mday, mon := tm.mon,
                  year := tm.year, isdst := 0 } = timestamp → timestamp ≠ -1 →
        parseDateTime P text = ParseOutcome.value timestamp) := by
  have hr' := hr
  obtain ⟨_, _, h3, h4, _, _, _, _⟩ := hr
  obtain ⟨_, _, g3, g4, _⟩ := hour12_range tm.hour h3 h4
  have e12 : hour12 tm.hour = tm.hour := by
    by_cases h12 : tm.hour = 12
    · rw [g3 (Or.inr h12), h12]
    · exact g4 (by omega) (by omega)
  have hread := readDateTime_formatTm tm hr' hy
  simp only [Tm.reread, e12] at hread
  refine ⟨formatTm tm, by simp [formatDateTime, hl], hread, ?_⟩
  intro hmk hne
  unfold parseDateTime
  rw [hread]
  simp only [hmk, if_neg hne]

/-- The hour that `parseDateTime` hands to `mktime` for the text printed for an afternoon
or midnight time is not the hour that was printed from: for the hours 13..23 it is 12
less, for the hour 0 it is 12. -/
theorem readDateTime_formatTm_hour (tm : Tm) (h : tm.inRange)
    (hy : 0 ≤ tm.year + 1900 ∧ tm.year + 1900 ≤ 9999) :
    (readDateTime (formatTm tm)).map (fun r => r.hour)
      = some (if tm.hour = 0 then 12 else if 12 < tm.hour then tm.hour - 12 else tm.hour) := by
  rw [readDateTime_formatTm tm h hy]
  obtain ⟨_, _, h3, h4, _, _, _, _⟩ := h
  obtain ⟨_, _, g3, g4, g5⟩ := hour12_range tm.hour h3 h4
  simp only [Option.map_some', Tm.reread, Option.some.injEq]
  by_cases h0 : tm.hour = 0
  · rw [if_pos h0, g3 (Or.inl h0)]
  · rw [if_neg h0]
    by_cases h12 : 12 < tm.hour
    · rw [if_pos h12, g5 h12]
    · rw [if_neg h12]
      by_cases he : tm.hour = 12
      · rw [g3 (Or.inr he), he]
      · exact g4 (by omega) (by omega)

theorem skipWs_head (s : Str) (c : Char) (cs : Str) (h : skipWs s = c :: cs) :
    isSpace c = false := by
  induction s with
  | nil => simp [skipWs] at h
  | cons x xs ih =>
    unfold skipWs at h
    split at h
    · exact ih h
    · rename_i hx
      cases h
      simpa using hx

/-- With the stream width 2 the extraction into `meridian` stores exactly one character,
whatever the text is: the stored string is never `"PM"` and never `"AM"`, so neither
branch of the 12-hour conversion can run. -/
theorem meridian_is_one_character (s meridian rest : Str)
    (h : extractCStr 2 s = some (meridian, rest)) :
    meridian.length = 1 ∧ meridian ≠ "PM".toList ∧ meridian ≠ "AM".toList := by
  unfold extractCStr at h
  cases hs : skipWs s with
  | nil => rw [hs] at h; simp at h
  | cons c cs =>
    rw [hs] at h
    have hc := skipWs_head s c cs hs
    simp only [Nat.add_one_sub_one, takeWord, hc, Bool.false_eq_true, if_false,
      Option.some.injEq, Prod.mk.injEq] at h
    obtain ⟨h1, _⟩ := h
    subst h1
    refine ⟨rfl, ?_, ?_⟩ <;> intro e <;> simp at e

/-- C3 (the code at failing inputs, reference platform): the timestamp 1704114300 is
2024-01-01 13:05:00; `formatDateTime` prints `01/01/2024 - 01:05PM`, and `parseDateTime`
of that text returns 1704071100, which is 01:05 in the morning of that day: only one
character of the meridian is stored (the stream width is still 2), so the comparison with
`"PM"` is false and 12 hours are not added. Midnight (1704067200) is printed as `12:00AM`
and comes back as noon (1704110400), because the comparison with `"AM"` is false too. -/
theorem parseDateTime_drops_meridian :
    formatDateTime refPlatform 1704114300 = some "01/01/2024 - 01:05PM".toList ∧
    parseDateTime refPlatform "01/01/2024 - 01:05PM".toList = ParseOutcome.value 1704071100 ∧
    formatDateTime refPlatform 1704067200 = some "01/01/2024 - 12:00AM".toList ∧
    parseDateTime refPlatform "01/01/2024 - 12:00AM".toList = ParseOutcome.value 1704110400 := by
  decide!

/-- C10 (as amended): for every timestamp whose broken-down local time lies in the
standard ranges and whose year is between 1000 and 9999, `formatDateTime` returns exactly
the text `MM/DD/YYYY - hh:mmAM/PM`: two digits of the month 1..12, `/`, two digits of the
day, `/`, the four digits of the year, ` - `, two digits of the hour of the 12-hour clock
in 1..12 (12 for the hours 0 and 12), `:`, two digits of the minute, and `AM` when the
hour is below 12, `PM` otherwise. -/
theorem formatDateTime_shape (P : Platform) (timestamp : Int) (tm : Tm)
    (hlt : P.localtime timestamp = some tm) (hr : tm.inRange)
    (hy : 1000 ≤ tm.year + 1900 ∧ tm.year + 1900 ≤ 9999) :
    formatDateTime P timestamp
        = some (dateTimeShape (tm.mon + 1).toNat tm.mday.toNat (tm.year + 1900).toNat
            (hour12 tm.hour).toNat tm.min.toNat (decide (12 ≤ tm.hour))) ∧
      (1 ≤ (tm.mon + 1).toNat ∧ (tm.mon + 1).toNat ≤ 12) ∧
      (1 ≤ (hour12 tm.hour).toNat ∧ (hour12 tm.hour).toNat ≤ 12) ∧
      (tm.hour = 0 ∨ tm.hour = 12 → (hour12 tm.hour).toNat = 12) := by
  have hr' := hr
  obtain ⟨h1, h2, h3, h4, h5, h6, h7, h8⟩ := hr
  obtain ⟨g1, g2, g3, _, _⟩ := hour12_range tm.hour h3 h4
  refine ⟨?_, by omega, by omega, fun h => by have := g3 h; omega⟩
  unfold formatDateTime
  rw [hlt, Option.map_some', formatTm_text tm hr' (by omega),
    natToDec_four (tm.year + 1900).toNat (by omega) (by omega)]
  unfold dateTimeShape
  by_cases hh : tm.hour < 12
  · have : ¬ 12 ≤ tm.hour := by omega
    simp [hh, this]
  · have : 12 ≤ tm.hour := by omega
    simp [hh, this]

/-- C10 (witness): the timestamp 0 on the reference platform, 1970-01-01 00:00. -/
theorem formatDateTime_shape_witness :
    formatDateTime refPlatform 0 = some (dateTimeShape 1 1 1970 12 0 false) ∧
      (1 ≤ 1 ∧ 1 ≤ 12) ∧ (1 ≤ 12 ∧ 12 ≤ 12) ∧ ((0 : Int) = 0 ∨ (0 : Int) = 12 → 12 = 12) :=
  formatDateTime_shape refPlatform 0
    { sec := 0, min := 0, hour := 0, mday := 1, mon := 0, year := 70, isdst := 0 }
    (by decide!) (by decide) (by decide)

/-- C10 (counterexample to the claim as stated): the timestamp 253402300800 is
10000-01-01 00:00; `formatDateTime` prints the year with five digits, a text of 21
characters that has not the shape `MM/DD/YYYY - hh:mmAM/PM`. -/
theorem formatDateTime_year_five_digits :
    formatDateTime refPlatform 253402300800 = some "01/01/10000 - 12:00AM".toList ∧
    ∀ month day year hour minute pm,
      formatDateTime refPlatform 253402300800
        ≠ some (dateTimeShape month day year hour minute pm) := by
  have h : formatDateTime refPlatform 253402300800 = some "01/01/10000 - 12:00AM".toList := by
    decide!
  refine ⟨h, ?_⟩
  intro month day year hour minute pm e
  rw [h] at e
  have := congrArg (fun o => o.map List.length) e
  simp [dateTimeShape] at this

/-! ### `getline`, `split` and `join` -/

theorem untilDelim_append (d : Char) (rest : Str) (a : Str) (h : d ∉ a) :
    untilDelim d (a ++ d :: rest) = (a, rest) := by
  induction a with
  | nil => simp [untilDelim]
  | cons c cs ih =>
    have hc : c ≠ d := fun e => h (by simp [e])
    have hcs : d ∉ cs := fun e => h (by simp [e])
    simp [untilDelim, hc, ih hcs]

theorem untilDelim_no_delim (d : Char) (a : Str) (h : d ∉ a) : untilDelim d a = (a, []) := by
  induction a with
  | nil => simp [untilDelim]
  | cons c cs ih =>
    have hc : c ≠ d := fun e => h (by simp [e])
    have hcs : d ∉ cs := fun e => h (by simp [e])
    simp [untilDelim, hc, ih hcs]

theorem getline_append (d : Char) (a rest : Str) (h : d ∉ a) :
    getline (a ++ d :: rest) d = some (a, rest) := by
  unfold getline
  cases hs : a ++ d :: rest with
  | nil => simp at hs
  | cons c cs => simp only; rw [← hs, untilDelim_append d rest a h]

theorem getline_no_delim (d : Char) (a : Str) (hne : a ≠ []) (h : d ∉ a) :
    getline a d = some (a, []) := by
  unfold getline
  cases hs : a with
  | nil => exact absurd hs hne
  | cons c cs => simp only; rw [← hs, untilDelim_no_delim d a h]

theorem untilDelim_rest_length (d : Char) (s : Str) :
    (untilDelim d s).2.length ≤ s.length - 1 := by
  induction s with
  | nil => simp [untilDelim]
  | cons c cs ih =>
    unfold untilDelim
    split
    · simp
    · simp only [List.length_cons, Nat.add_sub_cancel]
      omega

/-- More fuel than the length of the text does not change the `getline` loop. -/
theorem getlineLoop_fuel (d : Char) (n : Nat) : ∀ (fuel1 fuel2 : Nat) (s : Str),
    s.length ≤ n → n ≤ fuel1 → n ≤ fuel2 → getlineLoop fuel1 s d = getlineLoop fuel2 s d := by
  induction n with
  | zero =>
    intro fuel1 fuel2 s hs _ _
    have : s = [] := List.length_eq_zero.mp (by omega)
    subst this
    cases fuel1 <;> cases fuel2 <;> simp [getlineLoop, getline]
  | succ n ih =>
    intro fuel1 fuel2 s hs h1 h2
    cases fuel1 with
    | zero => omega
    | succ f1 =>
      cases fuel2 with
      | zero => omega
      | succ f2 =>
        cases s with
        | nil => simp [getlineLoop, getline]
        | cons c cs =>
          have hl := untilDelim_rest_length d (c :: cs)
          simp only [List.length_cons, Nat.add_sub_cancel] at hl hs
          simp only [getlineLoop, getline]
          rw [ih f1 f2 _ (by omega) (by omega) (by omega)]

theorem split_append (d : Char) (a rest : Str) (h : d ∉ a) :
    split (a ++ d :: rest) d = a :: split rest d := by
  unfold split
  have hlen : (a ++ d :: rest).length = (a.length + rest.length) + 1 := by simp; omega
  rw [hlen]
  simp only [getlineLoop, getline_append d a rest h]
  rw [getlineLoop_fuel d rest.length (a.length + rest.length) rest.length rest (le_refl _)
    (by omega) (le_refl _)]

theorem split_no_delim (d : Char) (a : Str) (hne : a ≠ []) (h : d ∉ a) : split a d = [a] := by
  unfold split
  cases hs : a with
  | nil => exact absurd hs hne
  | cons c cs =>
    rw [← hs]
    have hlen : a.length = cs.length + 1 := by rw [hs]; simp
    rw [hlen]
    simp only [getlineLoop, getline_no_delim d a hne h]
    cases cs.length <;> simp [getlineLoop, getline]

theorem joinLoop_succ (d : Str) (xs : List Str) : ∀ (i : Nat) (r : Str),
    joinLoop d (i + 1) xs r = r ++ joinLoop d 1 xs [] := by
  induction xs with
  | nil => intro i r; simp [joinLoop]
  | cons x xs ih =>
    intro i r
    simp only [joinLoop, Nat.zero_lt_succ, gt_iff_lt, if_true, Nat.lt_add_one, List.nil_append]
    rw [ih (i + 1), ih 1]
    simp

theorem join_nil (d : Str) : join [] d = [] := rfl

theorem join_singleton (x d : Str) : join [x] d = x := by
  simp [join, joinLoop]

theorem join_cons_cons (x y : Str) (ys : List Str) (d : Str) :
    join (x :: y :: ys) d = x ++ d ++ join (y :: ys) d := by
  have e1 : ∀ r, joinLoop d 1 ys r = r ++ joinLoop d 1 ys [] := fun r => joinLoop_succ d ys 0 r
  have e2 : ∀ r, joinLoop d 2 ys r = r ++ joinLoop d 1 ys [] := fun r => joinLoop_succ d ys 1 r
  have l : join (x :: y :: ys) d = joinLoop d 2 ys (x ++ d ++ y) := by
    simp [join, joinLoop]
  have r : join (y :: ys) d = joinLoop d 1 ys y := by
    simp [join, joinLoop]
  rw [l, r, e2, e1 y]
  simp

/-- `split` undoes `join` on a non-empty list of tags that do not contain the delimiter
and whose last tag is not empty. -/
theorem split_join (d : Char) (tags : List Str) (hne : tags ≠ [])
    (hd : ∀ g ∈ tags, d ∉ g) (hlast : tags.getLast? ≠ some []) :
    split (join tags [d]) d = tags := by
  induction tags with
  | nil => exact absurd rfl hne
  | cons x xs ih =>
    cases xs with
    | nil =>
      rw [join_singleton]
      have hx : x ≠ [] := by
        intro e; apply hlast; simp [e]
      exact split_no_delim d x hx (hd x (by simp))
    | cons y ys =>
      rw [join_cons_cons, List.append_assoc, List.singleton_append,
        split_append d x _ (hd x (by simp)),
        ih (by simp) (fun g hg => hd g (by simp [hg])) (by simpa using hlast)]

theorem not_mem_join (c : Char) (d : Str) (hcd : c ∉ d) (tags : List Str)
    (h : ∀ g ∈ tags, c ∉ g) : c ∉ join tags d := by
  induction tags with
  | nil => simp [join_nil]
  | cons x xs ih =>
    cases xs with
    | nil => rw [join_singleton]; exact h x (by simp)
    | cons y ys =>
      rw [join_cons_cons]
      have := ih (fun g hg => h g (by simp [hg]))
      have hx := h x (by simp)
      simp [hx, hcd, this]

theorem join_ne_nil (d : Str) (tags : List Str) (hne : tags ≠ [])
    (hlast : tags.getLast? ≠ some []) : join tags d ≠ [] := by
  induction tags with
  | nil => exact absurd rfl hne
  | cons x xs ih =>
    cases xs with
    | nil =>
      rw [join_singleton]
      intro e; apply hlast; simp [e]
    | cons y ys =>
      rw [join_cons_cons]
      have := ih (by simp) (by simpa using hlast)
      simp [this]

/-! ### Rows -/

theorem intToDec_chars (z : Int) : ∀ c ∈ intToDec z, c = '-' ∨ c.isDigit = true := by
  intro c hc
  unfold intToDec at hc
  split at hc
  · rcases List.mem_cons.mp hc with h | h
    · exact Or.inl h
    · exact Or.inr (natToDec_digits _ c h)
  · exact Or.inr (natToDec_digits _ c hc)

theorem put2_chars (z : Int) : ∀ c ∈ put2 z, c = '-' ∨ c.isDigit = true := by
  intro c hc
  unfold put2 at hc
  rcases List.mem_append.mp hc with h | h
  · rw [(List.mem_replicate.mp h).2]; exact Or.inr (by decide)
  · exact intToDec_chars z c h

/-- The characters of the text of `formatDateTime`: digits and `-`, `/`, blank, `:`, `A`,
`P`, `M`. -/
theorem formatTm_chars (tm : Tm) :
    ∀ c ∈ formatTm tm, c.isDigit = true ∨ c ∈ "-/ :APM".toList := by
  have hp : ∀ z, ∀ c ∈ put2 z, c.isDigit = true ∨ c ∈ "-/ :APM".toList := by
    intro z c h
    rcases put2_chars z c h with e | e
    · subst e; exact Or.inr (by decide)
    · exact Or.inl e
  have hi : ∀ z, ∀ c ∈ intToDec z, c.isDigit = true ∨ c ∈ "-/ :APM".toList := by
    intro z c h
    rcases intToDec_chars z c h with e | e
    · subst e; exact Or.inr (by decide)
    · exact Or.inl e
  have hk : ∀ (w : Str), (∀ c ∈ w, c ∈ "-/ :APM".toList) →
      ∀ c ∈ w, c.isDigit = true ∨ c ∈ "-/ :APM".toList := fun w hw c hc => Or.inr (hw c hc)
  intro c hc
  unfold formatTm at hc
  simp only [List.mem_append] at hc
  rcases hc with ((((((((h | h) | h) | h) | h) | h) | h) | h) | h) | h
  · exact hp _ c h
  · exact hk "/".toList (by decide) c h
  · exact hp _ c h
  · exact hk "/".toList (by decide) c h
  · exact hi _ c h
  · exact hk " - ".toList (by decide) c h
  · exact hp _ c h
  · exact hk ":".toList (by decide) c h
  · exact hp _ c h
  · split at h
    · exact hk "AM".toList (by decide) c h
    · exact hk "PM".toList (by decide) c h

/-- The text of `formatDateTime` never contains a comma. -/
theorem formatTm_no_comma (tm : Tm) : ',' ∉ formatTm tm := by
  intro h
  rcases formatTm_chars tm _ h with e | e
  · exact absurd e (by decide)
  · exact absurd e (by decide)

/-- The text of `formatDateTime` never contains a line break. -/
theorem formatTm_no_newline (tm : Tm) : '\n' ∉ formatTm tm := by
  intro h
  rcases formatTm_chars tm _ h with e | e
  · exact absurd e (by decide)
  · exact absurd e (by decide)

/-- The four `getline` calls on a row made of three comma-free fields and a non-empty last
field without a line break. -/
theorem rowFields_row (stamp description amountStr tagsStr : Str)
    (h1 : ',' ∉ stamp) (h2 : ',' ∉ description) (h3 : ',' ∉ amountStr)
    (h4 : tagsStr ≠ []) (h5 : '\n' ∉ tagsStr) :
    rowFields (stamp ++ ",".toList ++ description ++ ",".toList ++ amountStr ++ ",".toList
        ++ tagsStr)
      = some (stamp, description, amountStr, tagsStr) := by
  have e : stamp ++ ",".toList ++ description ++ ",".toList ++ amountStr ++ ",".toList ++ tagsStr
      = stamp ++ ',' :: (description ++ ',' :: (amountStr ++ ',' :: tagsStr)) := by
    simp
  rw [e]
  unfold rowFields
  simp only [getline_append ',' _ _ h1, getline_append ',' _ _ h2, getline_append ',' _ _ h3,
    getline_no_delim '\n' tagsStr h4 h5]

/-- A description with a line break does not survive the file: the row of `lineBreakRow` is
written over two lines, `std::getline(file, line)` reads them as two data lines, both are
skipped, and the load returns no transaction. -/
theorem row_with_line_break_is_cut :
    ',' ∉ lineBreakRow.description ∧ ';' ∉ lineBreakRow.description ∧
    saveTransactionsToFile refPlatform
        { FinanceTracker.empty with transactions := [lineBreakRow] }
      = some (headerLine ++ "\n01/01/1970 - 10:00AM,a\nb,-900,housing\n".toList) ∧
    fileLines (headerLine ++ "\n01/01/1970 - 10:00AM,a\nb,-900,housing\n".toList)
      = [headerLine, "01/01/1970 - 10:00AM,a".toList, "b,-900,housing".toList] ∧
    (loadTransactionsFromFile refPlatform FinanceTracker.empty
        (some (headerLine ++ "\n01/01/1970 - 10:00AM,a\nb,-900,housing\n".toList))).map
      (fun s => s.transactions) = some [] := by
  decide!

/-- C2 (as amended): for every transaction with a non-empty tag list whose last tag is not
empty, whose description and rendered amount contain no comma and no line break, whose
tags contain no semicolon and no line break, whose rendered amount `std::stod` reads back
as the amount, and whose printed timestamp `parseDateTime` reads back as the timestamp:
the row that `saveTransactionsToFile` writes holds no line break, so
`std::getline(file, line)` reads it back as one line whatever follows it in the file; that
line decodes, the way `loadTransactionsFromFile` does, to exactly that transaction
(description, amount, timestamp and tag list); and saving a ledger that holds this one
transaction and loading the file written gives, from any prior state, exactly this one
transaction. -/
theorem row_round_trip (P : Platform) (t : Transaction) (stamp : Str)
    (hfmt : formatDateTime P t.timestamp = some stamp)
    (hparse : parseDateTime P stamp = ParseOutcome.value t.timestamp)
    (hamt : P.stod (P.render t.amount) = some t.amount)
    (hdesc : ',' ∉ t.description ∧ '\n' ∉ t.description)
    (hren : ',' ∉ P.render t.amount ∧ '\n' ∉ P.render t.amount)
    (htags : t.tags ≠ []) (hlast : t.tags.getLast? ≠ some [])
    (htag : ∀ g ∈ t.tags, ';' ∉ g ∧ '\n' ∉ g) :
    ∃ row, encodeRow P t = some row ∧ '\n' ∉ row ∧
      (∀ rest, fileLines (row ++ '\n' :: rest) = row :: fileLines rest) ∧
      decodeRow P row = RowOutcome.parsed t ∧
      ∀ ft s : FinanceTracker, ft.transactions = [t] →
        ∃ content s', saveTransactionsToFile P ft = some content ∧
          fileLines content = [headerLine, row] ∧
          loadTransactionsFromFile P s (some content) = some s' ∧
          s'.transactions = [t] := by
  have hstamp : ',' ∉ stamp ∧ '\n' ∉ stamp := by
    unfold formatDateTime at hfmt
    cases hl : P.localtime t.timestamp with
    | none => rw [hl] at hfmt; simp at hfmt
    | some tm =>
      rw [hl] at hfmt
      simp only [Option.map_some', Option.some.injEq] at hfmt
      rw [← hfmt]
      exact ⟨formatTm_no_comma tm, formatTm_no_newline tm⟩
  have hj1 : join t.tags ";".toList ≠ [] := join_ne_nil _ _ htags hlast
  have hj2 : '\n' ∉ join t.tags ";".toList :=
    not_mem_join '\n' _ (by decide) _ (fun g hg => (htag g hg).2)
  have henc : encodeRow P t = some (stamp ++ ",".toList ++ t.description ++ ",".toList
      ++ P.render t.amount ++ ",".toList ++ join t.tags ";".toList) := by
    unfold encodeRow
    rw [hfmt]
    rfl
  have hrow : '\n' ∉ stamp ++ ",".toList ++ t.description ++ ",".toList
      ++ P.render t.amount ++ ",".toList ++ join t.tags ";".toList := by
    intro h
    simp only [List.mem_append, String.toList, List.mem_singleton] at h
    rcases h with ((((((h | h) | h) | h) | h) | h) | h)
    · exact hstamp.2 h
    · exact absurd h (by decide)
    · exact hdesc.2 h
    · exact absurd h (by decide)
    · exact hren.2 h
    · exact absurd h (by decide)
    · exact hj2 h
  have hdec : decodeRow P (stamp ++ ",".toList ++ t.description ++ ",".toList
      ++ P.render t.amount ++ ",".toList ++ join t.tags ";".toList)
      = RowOutcome.parsed t := by
    unfold decodeRow
    rw [rowFields_row stamp t.description (P.render t.amount) _ hstamp.1 hdesc.1 hren.1 hj1 hj2]
    simp only [hparse, hamt]
    have hs : split (join t.tags ";".toList) ';' = t.tags :=
      split_join ';' t.tags htags (fun g hg => (htag g hg).1) hlast
    rw [hs]
  have hcut : ∀ rest, fileLines ((stamp ++ ",".toList ++ t.description ++ ",".toList
      ++ P.render t.amount ++ ",".toList ++ join t.tags ";".toList) ++ '\n' :: rest)
      = (stamp ++ ",".toList ++ t.description ++ ",".toList
      ++ P.render t.amount ++ ",".toList ++ join t.tags ";".toList) :: fileLines rest :=
    fun rest => split_append '\n' _ rest hrow
  refine ⟨_, henc, hrow, hcut, hdec, ?_⟩
  intro ft s hft
  have hlines : fileLines (headerLine ++ '\n' :: ((stamp ++ ",".toList ++ t.description
      ++ ",".toList ++ P.render t.amount ++ ",".toList ++ join t.tags ";".toList) ++ '\n' :: []))
      = [headerLine, stamp ++ ",".toList ++ t.description ++ ",".toList
      ++ P.render t.amount ++ ",".toList ++ join t.tags ";".toList] := by
    have e1 : fileLines (headerLine ++ '\n' :: ((stamp ++ ",".toList ++ t.description
        ++ ",".toList ++ P.render t.amount ++ ",".toList ++ join t.tags ";".toList)
        ++ '\n' :: []))
        = headerLine :: fileLines ((stamp ++ ",".toList ++ t.description
        ++ ",".toList ++ P.render t.amount ++ ",".toList ++ join t.tags ";".toList)
        ++ '\n' :: []) :=
      split_append '\n' headerLine _ (by decide)
    rw [e1, hcut []]
    rfl
  refine ⟨_, { balance := FinanceTracker.empty.balance.add t.amount
               transactions := FinanceTracker.empty.transactions ++ [t]
               categorizedTransactions :=
                 categorize FinanceTracker.empty.categorizedTransactions t t.tags }, ?_, hlines,
    ?_, rfl⟩
  · unfold saveTransactionsToFile
    rw [hft]
    simp only [encodeRows, henc, Option.map_some']
  · show loadLines P FinanceTracker.empty ((fileLines _).drop 1) = _
    rw [hlines]
    simp only [List.drop_succ_cons, List.drop_zero, loadLines, loadLine, hdec]

/-- C2 (witness): a transaction of 1970-01-01 10:00 with one tag on the reference
platform. -/
theorem row_round_trip_witness :
    ∃ row, encodeRow refPlatform sampleRow = some row ∧ '\n' ∉ row ∧
      (∀ rest, fileLines (row ++ '\n' :: rest) = row :: fileLines rest) ∧
      decodeRow refPlatform row = RowOutcome.parsed sampleRow ∧
      ∀ ft s : FinanceTracker, ft.transactions = [sampleRow] →
        ∃ content s', saveTransactionsToFile refPlatform ft = some content ∧
          fileLines content = [headerLine, row] ∧
          loadTransactionsFromFile refPlatform s (some content) = some s' ∧
          s'.transactions = [sampleRow] :=
  row_round_trip refPlatform sampleRow "01/01/1970 - 10:00AM".toList
    (by decide!) (by decide!) (by decide!) (by decide!) (by decide!) (by decide!) (by decide!)
    (by decide!)

/-- C2 (counterexample to the claim as stated, reference platform): a transaction with an
empty tag list, no comma and no semicolon anywhere, and a timestamp with zero seconds. Its
row ends with the third comma, the fourth `getline` extracts nothing, and the row is
skipped: decoding yields no transaction. A second transaction, with a tag and the amount
1234567, is written with six significant digits as `1.23457e+06` and comes back with the
amount 1234570. -/
theorem row_round_trip_fails :
    (untaggedRow.tags = [] ∧
      encodeRow refPlatform untaggedRow = some "01/01/1970 - 10:00AM,Rent,-900,".toList ∧
      decodeRow refPlatform "01/01/1970 - 10:00AM,Rent,-900,".toList = RowOutcome.skipped) ∧
    (encodeRow refPlatform sevenDigitRow
        = some "01/01/1970 - 10:00AM,Car,1.23457e+06,auto".toList ∧
      decodeRow refPlatform "01/01/1970 - 10:00AM,Car,1.23457e+06,auto".toList
        = RowOutcome.parsed { sevenDigitRow with amount := F64.ofInt 1234570 } ∧
      sevenDigitRow.amount = F64.ofInt 1234567 ∧ sevenDigitRow.amount.valid) := by
  decide!

/-! ### Loading a file with one corrupt line -/

theorem loadLines_append (P : Platform) (a b : List Str) : ∀ ft : FinanceTracker,
    loadLines P ft (a ++ b) = (loadLines P ft a).bind fun ft1 => loadLines P ft1 b := by
  induction a with
  | nil => intro ft; simp [loadLines]
  | cons line a ih =>
    intro ft
    simp only [List.cons_append, loadLines]
    cases loadLine P ft line with
    | none => simp
    | some ft1 => simp [ih ft1]

/-- Lines that all decode are all loaded: the loop is defined on them. -/
theorem loadLines_defined (P : Platform) (lines : List Str)
    (h : ∀ l ∈ lines, ∃ t, decodeRow P l = RowOutcome.parsed t) :
    ∀ ft : FinanceTracker, ∃ ft1, loadLines P ft lines = some ft1 := by
  induction lines with
  | nil => intro ft; exact ⟨ft, rfl⟩
  | cons line lines ih =>
    intro ft
    obtain ⟨t, ht⟩ := h line (by simp)
    simp only [loadLines, loadLine_parsed P ft line t ht]
    exact ih (fun l hl => h l (by simp [hl])) _

theorem acceptedRows_of_parsed (P : Platform) (lines : List Str)
    (h : ∀ l ∈ lines, ∃ t, decodeRow P l = RowOutcome.parsed t) :
    lines.map (decodeRow P) = (acceptedRows P lines).map RowOutcome.parsed := by
  induction lines with
  | nil => simp [acceptedRows]
  | cons line lines ih =>
    obtain ⟨t, ht⟩ := h line (by simp)
    rw [acceptedRows_cons, List.map_cons, List.map_append, ← ih (fun l hl => h l (by simp [hl]))]
    simp [acceptedRows, ht]

theorem decodeRow_bad_amount (P : Platform) (line stamp description amountStr tagsStr : Str)
    (hf : rowFields line = some (stamp, description, amountStr, tagsStr))
    (hstamp : parseDateTime P stamp ≠ ParseOutcome.undefined)
    (hstod : P.stod amountStr = none) : decodeRow P line = RowOutcome.caught := by
  unfold decodeRow
  rw [hf]
  simp only
  cases hp : parseDateTime P stamp with
  | undefined => exact absurd hp hstamp
  | runtimeError => rfl
  | value ts => simp only [hstod]

/-- C8: for every file whose lines are a header, data lines that all decode, one more data
line among them that is cut into four fields, has a timestamp field on which
`parseDateTime` is defined and an amount field that `std::stod` rejects: the load yields
exactly the transactions of the other lines in file order, the balance is the sum of their
amounts, and the state is the one that the same file without the corrupt line yields (so
the line adds no transaction, no index entry and nothing to the balance, and the lines
after it are processed). -/
theorem load_skips_line_with_bad_amount (P : Platform) (s0 : FinanceTracker)
    (content header : Str) (pre post : List Str) (bad stamp description amountStr tagsStr : Str)
    (hdoc : fileLines content = header :: (pre ++ bad :: post))
    (hgood : ∀ l ∈ pre ++ post, ∃ t, decodeRow P l = RowOutcome.parsed t)
    (hbad : rowFields bad = some (stamp, description, amountStr, tagsStr))
    (hstamp : parseDateTime P stamp ≠ ParseOutcome.undefined)
    (hstod : P.stod amountStr = none) :
    ∃ s', loadTransactionsFromFile P s0 (some content) = some s' ∧
      (pre ++ post).map (decodeRow P) = s'.transactions.map RowOutcome.parsed ∧
      s'.balance = sumAmounts s'.transactions ∧
      ∀ s1 content1 header1, fileLines content1 = header1 :: (pre ++ post) →
        loadTransactionsFromFile P s1 (some content1) = some s' := by
  have hcaught := decodeRow_bad_amount P bad stamp description amountStr tagsStr hbad hstamp hstod
  have hpre : ∀ l ∈ pre, ∃ t, decodeRow P l = RowOutcome.parsed t :=
    fun l hl => hgood l (by simp [hl])
  have hsame : loadLines P FinanceTracker.empty (pre ++ bad :: post)
      = loadLines P FinanceTracker.empty (pre ++ post) := by
    rw [loadLines_append, loadLines_append]
    obtain ⟨s1, hs1⟩ := loadLines_defined P pre hpre FinanceTracker.empty
    rw [hs1]
    simp only [Option.some_bind, loadLines, loadLine_skipped P s1 bad (Or.inr hcaught)]
  obtain ⟨s', hs'⟩ := loadLines_defined P (pre ++ post) hgood FinanceTracker.empty
  obtain ⟨ht, hb⟩ := loadLines_spec P _ _ _ hs'
  have ht' : s'.transactions = acceptedRows P (pre ++ post) := by
    simpa [FinanceTracker.empty] using ht
  refine ⟨s', ?_, ?_, hb rfl, ?_⟩
  · show loadLines P FinanceTracker.empty ((fileLines content).drop 1) = some s'
    rw [hdoc, List.drop_one, List.tail_cons, hsame, hs']
  · rw [ht']
    exact acceptedRows_of_parsed P _ hgood
  · intro s1 content1 header1 h1
    show loadLines P FinanceTracker.empty ((fileLines content1).drop 1) = some s'
    rw [h1, List.drop_one, List.tail_cons, hs']

/-- C8 (witness): `corruptDoc` on the reference platform; its second data line has the
amount field `abc`. -/
theorem load_skips_line_with_bad_amount_witness :
    ∃ s', loadTransactionsFromFile refPlatform FinanceTracker.empty (some corruptDoc) = some s' ∧
      (["01/01/1970 - 10:00AM,Paycheck,1500,income".toList]
          ++ ["01/01/1970 - 10:02AM,Rent,-900,housing".toList]).map (decodeRow refPlatform)
        = s'.transactions.map RowOutcome.parsed ∧
      s'.balance = sumAmounts s'.transactions ∧
      ∀ s1 content1 header1,
        fileLines content1 = header1 :: (["01/01/1970 - 10:00AM,Paycheck,1500,income".toList]
          ++ ["01/01/1970 - 10:02AM,Rent,-900,housing".toList]) →
        loadTransactionsFromFile refPlatform s1 (some content1) = some s' :=
  load_skips_line_with_bad_amount refPlatform FinanceTracker.empty corruptDoc headerLine
    ["01/01/1970 - 10:00AM,Paycheck,1500,income".toList]
    ["01/01/1970 - 10:02AM,Rent,-900,housing".toList]
    "01/01/1970 - 10:01AM,Oops,abc,misc".toList
    "01/01/1970 - 10:01AM".toList "Oops".toList "abc".toList "misc".toList
    (by decide!)
    (by
      intro l hl
      simp only [List.singleton_append, List.mem_cons, List.mem_singleton, List.not_mem_nil,
        or_false] at hl
      rcases hl with hl | hl
      · exact ⟨corruptDocRows.get ⟨0, by decide⟩, by rw [hl]; decide!⟩
      · exact ⟨corruptDocRows.get ⟨1, by decide⟩, by rw [hl]; decide!⟩)
    (by decide!) (by decide!) (by decide!)

/-! ### The scenario: two transactions, saved and loaded -/

theorem fileLines_append (a rest : Str) (h : '\n' ∉ a) :
    fileLines (a ++ '\n' :: rest) = a :: fileLines rest :=
  split_append '\n' a rest h

theorem decodeRow_formatted (P : Platform) (tm : Tm) (description amountStr tagsStr : Str)
    (amount : F64) (hr : tm.inRange) (hy : 0 ≤ tm.year + 1900 ∧ tm.year + 1900 ≤ 9999)
    (hmk : P.mktime tm.reread ≠ -1) (hd : ',' ∉ description) (ha : ',' ∉ amountStr)
    (hstod : P.stod amountStr = some amount) (ht1 : tagsStr ≠ []) (ht2 : '\n' ∉ tagsStr) :
    decodeRow P (formatTm tm ++ ",".toList ++ description ++ ",".toList ++ amountStr
        ++ ",".toList ++ tagsStr)
      = RowOutcome.parsed
          { description := description, amount := amount, timestamp := P.mktime tm.reread,
            tags := split tagsStr ';' } := by
  unfold decodeRow
  rw [rowFields_row _ _ _ _ (formatTm_no_comma tm) hd ha ht1 ht2]
  simp only [parseDateTime_formatTm P tm hr hy, if_neg hmk, hstod]

/-- C9: the scenario. On a fresh tracker, `addTransaction("Paycheck", 1500.00, ["income"])`
at the time `now1` and `addTransaction("Rent", -900.00, ["housing"])` at the time `now2`
give `getTotalIncome() == 1500`, `getTotalExpenses() == 900` and the balance 600; the file
that saving writes loads, into any tracker, as exactly two transactions, "Paycheck" then
"Rent", with their amounts and tags, and the balance 600. The platform is assumed to print
1500 and -900 as `1500` and `-900` and to read them back, to give the two times a
broken-down local time in the standard ranges with a year in 0..9999, and `mktime` is
assumed not to fail on the re-read fields. -/
theorem scenario_save_load (P : Platform) (s0 : FinanceTracker) (now1 now2 : Int) (tm1 tm2 : Tm)
    (hl1 : P.localtime now1 = some tm1) (hr1 : tm1.inRange)
    (hy1 : 0 ≤ tm1.year + 1900 ∧ tm1.year + 1900 ≤ 9999) (hm1 : P.mktime tm1.reread ≠ -1)
    (hl2 : P.localtime now2 = some tm2) (hr2 : tm2.inRange)
    (hy2 : 0 ≤ tm2.year + 1900 ∧ tm2.year + 1900 ≤ 9999) (hm2 : P.mktime tm2.reread ≠ -1)
    (hren1 : P.render (F64.ofInt 1500) = "1500".toList)
    (hren2 : P.render (F64.ofInt (-900)) = "-900".toList)
    (hstod1 : P.stod "1500".toList = some (F64.ofInt 1500))
    (hstod2 : P.stod "-900".toList = some (F64.ofInt (-900))) :
    getTotalIncome (twoRows now1 now2) = F64.ofInt 1500 ∧
    getTotalExpenses (twoRows now1 now2) = F64.ofInt 900 ∧
    (twoRows now1 now2).balance = F64.ofInt 600 ∧
    ∃ doc s', saveTransactionsToFile P (twoRows now1 now2) = some doc ∧
      loadTransactionsFromFile P s0 (some doc) = some s' ∧
      s'.transactions =
        [ { description := "Paycheck".toList, amount := F64.ofInt 1500,
            timestamp := P.mktime tm1.reread, tags := ["income".toList] },
          { description := "Rent".toList, amount := F64.ofInt (-900),
            timestamp := P.mktime tm2.reread, tags := ["housing".toList] } ] ∧
      s'.transactions.length = 2 ∧
      s'.balance = F64.ofInt 600 := by
  have a1 : F64.zero.add (F64.ofInt 1500) = F64.ofInt 1500 := by decide!
  have a2 : (F64.ofInt 1500).add (F64.ofInt (-900)) = F64.ofInt 600 := by decide!
  have a3 : F64.zero.add (F64.ofInt 1500).abs = F64.ofInt 1500 := by decide!
  have a4 : F64.zero.add (F64.ofInt (-900)).abs = F64.ofInt 900 := by decide!
  have g1 : (F64.ofInt 1500).gtZero = true := by decide!
  have g2 : (F64.ofInt (-900)).gtZero = false := by decide!
  have g3 : (F64.ofInt 1500).ltZero = false := by decide!
  have g4 : (F64.ofInt (-900)).ltZero = true := by decide!
  refine ⟨?_, ?_, ?_, ?_⟩
  · simp [getTotalIncome, getTotalAmount, twoRows, addTransaction, FinanceTracker.empty, g1, g2, a3]
  · simp [getTotalExpenses, getTotalAmount, twoRows, addTransaction, FinanceTracker.empty, g3,
      g4, a4]
  · show (F64.zero.add (F64.ofInt 1500)).add (F64.ofInt (-900)) = F64.ofInt 600
    rw [a1, a2]
  · have d1 := decodeRow_formatted P tm1 "Paycheck".toList "1500".toList "income".toList
      (F64.ofInt 1500) hr1 hy1 hm1 (by decide) (by decide) hstod1 (by decide) (by decide)
    have d2 := decodeRow_formatted P tm2 "Rent".toList "-900".toList "housing".toList
      (F64.ofInt (-900)) hr2 hy2 hm2 (by decide) (by decide) hstod2 (by decide) (by decide)
    have sp1 : split "income".toList ';' = ["income".toList] := by decide
    have sp2 : split "housing".toList ';' = ["housing".toList] := by decide
    rw [sp1] at d1
    rw [sp2] at d2
    have nl : ∀ (tm : Tm) (w : Str), '\n' ∉ w → '\n' ∉ formatTm tm ++ w := by
      intro tm w hw h
      rcases List.mem_append.mp h with h | h
      · exact formatTm_no_newline tm h
      · exact hw h
    have hsave : saveTransactionsToFile P (twoRows now1 now2)
        = some (headerLine ++ '\n' ::
            ((formatTm tm1 ++ ",".toList ++ "Paycheck".toList ++ ",".toList ++ "1500".toList
                ++ ",".toList ++ "income".toList) ++ '\n' ::
              ((formatTm tm2 ++ ",".toList ++ "Rent".toList ++ ",".toList ++ "-900".toList
                ++ ",".toList ++ "housing".toList) ++ '\n' :: []))) := by
      simp [saveTransactionsToFile, encodeRows, encodeRow, formatDateTime, twoRows,
        addTransaction, FinanceTracker.empty, hl1, hl2, hren1, hren2, join, joinLoop]
    refine ⟨_,
      { balance := (F64.zero.add (F64.ofInt 1500)).add (F64.ofInt (-900))
        transactions :=
          [ { description := "Paycheck".toList, amount := F64.ofInt 1500,
              timestamp := P.mktime tm1.reread, tags := ["income".toList] },
            { description := "Rent".toList, amount := F64.ofInt (-900),
              timestamp := P.mktime tm2.reread, tags := ["housing".toList] } ]
        categorizedTransactions :=
          categorize
            (categorize []
              { description := "Paycheck".toList, amount := F64.ofInt 1500,
                timestamp := P.mktime tm1.reread, tags := ["income".toList] }
              ["income".toList])
            { description := "Rent".toList, amount := F64.ofInt (-900),
              timestamp := P.mktime tm2.reread, tags := ["housing".toList] }
            ["housing".toList] },
      hsave, ?_, rfl, rfl, ?_⟩
    · show loadLines P FinanceTracker.empty ((fileLines _).drop 1) = some _
      rw [fileLines_append _ _ (by decide), List.drop_one, List.tail_cons,
        fileLines_append _ _
          (by simp only [List.append_assoc]; exact nl tm1 _ (by decide)),
        fileLines_append _ _
          (by simp only [List.append_assoc]; exact nl tm2 _ (by decide))]
      have he : fileLines [] = [] := rfl
      rw [he]
      simp only [loadLines, loadLine_parsed P _ _ _ d1, loadLine_parsed P _ _ _ d2]
      rfl
    · show (F64.zero.add (F64.ofInt 1500)).add (F64.ofInt (-900)) = F64.ofInt 600
      rw [a1, a2]

/-- C9 (witness): the scenario on the reference platform, the two calls made at
2024-01-01 13:05 and 13:06. -/
theorem scenario_save_load_witness :
    getTotalIncome (twoRows 1704114300 1704114360) = F64.ofInt 1500 ∧
    getTotalExpenses (twoRows 1704114300 1704114360) = F64.ofInt 900 ∧
    (twoRows 1704114300 1704114360).balance = F64.ofInt 600 ∧
    ∃ doc s', saveTransactionsToFile refPlatform (twoRows 1704114300 1704114360) = some doc ∧
      loadTransactionsFromFile refPlatform FinanceTracker.empty (some doc) = some s' ∧
      s'.transactions =
        [ { description := "Paycheck".toList, amount := F64.ofInt 1500,
            timestamp := refPlatform.mktime tmA.reread, tags := ["income".toList] },
          { description := "Rent".toList, amount := F64.ofInt (-900),
            timestamp := refPlatform.mktime tmB.reread, tags := ["housing".toList] } ] ∧
      s'.transactions.length = 2 ∧
      s'.balance = F64.ofInt 600 :=
  scenario_save_load refPlatform FinanceTracker.empty 1704114300 1704114360 tmA tmB
    (by decide!) (by decide) (by decide) (by decide!)
    (by decide!) (by decide) (by decide) (by decide!)
    (by decide!) (by decide!) (by decide!) (by decide!)

/-! ### The printed time of day -/

/-- C11 (as amended): for every timestamp whose local time of day is 13:05, the text
returned by `formatDateTime` ends with ` - 01:05PM`: the hour is written with two
digits, filled with `0`, after the blank of the separator; it does not end with
`- 1:05PM`. -/
theorem formatDateTime_1305 (P : Platform) (timestamp : Int) (tm : Tm)
    (hl : P.localtime timestamp = some tm) (hh : tm.hour = 13) (hm : tm.min = 5) :
    ∃ text, formatDateTime P timestamp = some text ∧ " - 01:05PM".toList <:+ text ∧
      ¬ "- 1:05PM".toList <:+ text := by
  have e : formatTm tm
      = (put2 (tm.mon + 1) ++ "/".toList ++ put2 tm.mday ++ "/".toList
          ++ intToDec (tm.year + 1900)) ++ " - 01:05PM".toList := by
    unfold formatTm
    rw [hh, hm]
    have h1 : put2 (if Int.tmod 13 12 = 0 then 12 else Int.tmod 13 12) = "01".toList := by decide
    have h2 : put2 5 = "05".toList := by decide
    have h3 : (if (13 : Int) < 12 then "AM".toList else "PM".toList) = "PM".toList := by decide
    rw [h1, h2, h3]
    simp
  have hs : " - 01:05PM".toList <:+ formatTm tm := by
    rw [e]; exact List.suffix_append _ _
  refine ⟨formatTm tm, by simp [formatDateTime, hl], hs, ?_⟩
  intro hbad
  have := List.suffix_of_suffix_length_le hbad hs (by decide)
  revert this
  decide

/-- C11 (witness): the timestamp 1704114300, 2024-01-01 13:05 on the reference
platform. -/
theorem formatDateTime_1305_witness :
    ∃ text, formatDateTime refPlatform 1704114300 = some text ∧
      " - 01:05PM".toList <:+ text ∧ ¬ "- 1:05PM".toList <:+ text :=
  formatDateTime_1305 refPlatform 1704114300 tmA (by decide!) (by decide) (by decide)

/-- C11 (counterexample to the claim as stated): for the timestamp 1704114300, whose
local time of day is 13:05 on the reference platform, `formatDateTime` returns
`01/01/2024 - 01:05PM`, which does not end with `- 1:05PM`. -/
theorem formatDateTime_1305_padded :
    formatDateTime refPlatform 1704114300 = some "01/01/2024 - 01:05PM".toList ∧
    ¬ "- 1:05PM".toList <:+ "01/01/2024 - 01:05PM".toList := by
  decide!

/-! ### The effect of `addTagToTransaction` and `addTransaction` -/

/-- C12: for every ledger state, tag and index with `0 <= index < transactions.size()`,
`addTagToTransaction` does not throw; the transaction at that position gets the tag
appended to its tag list and keeps its description, amount and timestamp; the bucket of
the tag becomes its old content (empty if there was none) followed by that transaction
with its new tag list; the sequence keeps its length, every other position keeps its
transaction, the balance and every other bucket are as before. -/
theorem addTagToTransaction_in_range (ft : FinanceTracker) (index : Int) (tag : Str)
    (h : 0 ≤ index ∧ index < (ft.transactions.length : Int)) :
    ∃ t, ft.transactions.get? index.toNat = some t ∧
      (addTagToTransaction ft index tag).2 = false ∧
      (addTagToTransaction ft index tag).1.transactions.get? index.toNat
        = some { description := t.description, amount := t.amount, timestamp := t.timestamp,
                 tags := t.tags ++ [tag] } ∧
      (addTagToTransaction ft index tag).1.transactions.length = ft.transactions.length ∧
      (∀ j, j ≠ index.toNat →
        (addTagToTransaction ft index tag).1.transactions.get? j = ft.transactions.get? j) ∧
      (addTagToTransaction ft index tag).1.balance = ft.balance ∧
      bucket (addTagToTransaction ft index tag).1.categorizedTransactions tag
        = some ((bucket ft.categorizedTransactions tag).getD []
            ++ [{ description := t.description, amount := t.amount, timestamp := t.timestamp,
                  tags := t.tags ++ [tag] }]) ∧
      ∀ g, g ≠ tag →
        bucket (addTagToTransaction ft index tag).1.categorizedTransactions g
          = bucket ft.categorizedTransactions g := by
  have hlt : index.toNat < ft.transactions.length := by omega
  refine ⟨ft.transactions.get ⟨index.toNat, hlt⟩, List.get?_eq_get hlt, ?_⟩
  unfold addTagToTransaction
  rw [dif_pos h]
  refine ⟨rfl, ?_, ?_, ?_, rfl, ?_, ?_⟩
  · simp [Transaction.addTag, hlt]
  · simp
  · intro j hj
    simp only [List.get?_eq_getElem?]
    exact List.getElem?_set_ne (fun e => hj e.symm)
  · exact bucket_bucketPush_same _ _ _
  · intro g hg
    exact bucket_bucketPush_other _ _ _ _ hg

/-- C12 (witness): the tag `urgent` added at index 1 of the two-transaction tracker. -/
theorem addTagToTransaction_in_range_witness :
    ∃ t, (twoRows 0 60).transactions.get? (1 : Int).toNat = some t ∧
      (addTagToTransaction (twoRows 0 60) 1 "urgent".toList).2 = false ∧
      (addTagToTransaction (twoRows 0 60) 1 "urgent".toList).1.transactions.get? (1 : Int).toNat
        = some { description := t.description, amount := t.amount, timestamp := t.timestamp,
                 tags := t.tags ++ ["urgent".toList] } ∧
      (addTagToTransaction (twoRows 0 60) 1 "urgent".toList).1.transactions.length
        = (twoRows 0 60).transactions.length ∧
      (∀ j, j ≠ (1 : Int).toNat →
        (addTagToTransaction (twoRows 0 60) 1 "urgent".toList).1.transactions.get? j
          = (twoRows 0 60).transactions.get? j) ∧
      (addTagToTransaction (twoRows 0 60) 1 "urgent".toList).1.balance = (twoRows 0 60).balance ∧
      bucket (addTagToTransaction (twoRows 0 60) 1 "urgent".toList).1.categorizedTransactions
          "urgent".toList
        = some ((bucket (twoRows 0 60).categorizedTransactions "urgent".toList).getD []
            ++ [{ description := t.description, amount := t.amount, timestamp := t.timestamp,
                  tags := t.tags ++ ["urgent".toList] }]) ∧
      ∀ g, g ≠ "urgent".toList →
        bucket (addTagToTransaction (twoRows 0 60) 1 "urgent".toList).1.categorizedTransactions g
          = bucket (twoRows 0 60).categorizedTransactions g :=
  addTagToTransaction_in_range (twoRows 0 60) 1 "urgent".toList (by decide)

/-- The buckets after the categorising loop: the bucket of a tag of the list is its old
content followed by one copy of the transaction per occurrence of the tag; the others are
untouched. -/
theorem bucket_categorize (t : Transaction) (tags : List Str) : ∀ (m : TagMap) (g : Str),
    bucket (categorize m t tags) g
      = if g ∈ tags then some ((bucket m g).getD [] ++ List.replicate (tags.count g) t)
        else bucket m g := by
  induction tags with
  | nil => intro m g; simp [categorize]
  | cons tag tags ih =>
    intro m g
    have e : categorize m t (tag :: tags) = categorize (bucketPush m tag t) t tags := rfl
    rw [e, ih (bucketPush m tag t) g]
    by_cases hgt : g = tag
    · subst hgt
      rw [bucket_bucketPush_same]
      by_cases hin : g ∈ tags
      · simp [hin, List.replicate_succ]
      · simp [hin, List.count_eq_zero_of_not_mem hin]
    · rw [bucket_bucketPush_other m tag g t hgt]
      have hne : ¬ tag = g := fun e => hgt e.symm
      have hc : (tag :: tags).count g = tags.count g := by
        rw [List.count_cons]
        simp [hne]
      by_cases hin : g ∈ tags
      · simp [hin, hc]
      · simp [hin, hgt]

/-- C13: for every ledger state, description, amount, tag list and clock value,
`addTransaction` makes the sequence the old sequence followed by the new transaction
(description, amount, clock value, tags), so that the old transactions keep their
positions; makes the balance the old balance plus the amount; appends the new transaction
to the bucket of each tag of the list once per occurrence of the tag, and leaves every
other bucket as it was. Nothing is rejected: the function is total. -/
theorem addTransaction_effect (ft : FinanceTracker) (now : Int) (description : Str)
    (amount : F64) (tags : List Str) :
    (addTransaction ft now description amount tags).transactions
      = ft.transactions ++ [{ description := description, amount := amount, timestamp := now,
                              tags := tags }] ∧
    (∀ i, i < ft.transactions.length →
      (addTransaction ft now description amount tags).transactions.get? i
        = ft.transactions.get? i) ∧
    (addTransaction ft now description amount tags).balance = ft.balance.add amount ∧
    ∀ g, bucket (addTransaction ft now description amount tags).categorizedTransactions g
      = if g ∈ tags then
          some ((bucket ft.categorizedTransactions g).getD []
            ++ List.replicate (tags.count g)
                { description := description, amount := amount, timestamp := now, tags := tags })
        else bucket ft.categorizedTransactions g := by
  refine ⟨rfl, ?_, rfl, ?_⟩
  · intro i hi
    show (ft.transactions ++ [_]).get? i = _
    simp only [List.get?_eq_getElem?]
    exact List.getElem?_append_left hi
  · intro g
    exact bucket_categorize _ tags _ g

/-! ### What a load depends on -/

/-- C14: the first line of a file is dropped whatever it is. Two files with the same
lines after the first line load to the same result (the same transaction sequence,
balance and tag index); in particular the result for a first line `h` followed by `body`
is the result of the line loop on the lines of `body` alone; and the transactions of a
load are the accepted rows among the lines after the first, so the first line never
produces one. -/
theorem load_drops_first_line (P : Platform) (s : FinanceTracker) :
    (∀ c1 c2, (fileLines c1).drop 1 = (fileLines c2).drop 1 →
      loadTransactionsFromFile P s (some c1) = loadTransactionsFromFile P s (some c2)) ∧
    (∀ h body, '\n' ∉ h →
      loadTransactionsFromFile P s (some (h ++ '\n' :: body))
        = loadLines P FinanceTracker.empty (fileLines body)) ∧
    (∀ c s', loadTransactionsFromFile P s (some c) = some s' →
      s'.transactions = acceptedRows P ((fileLines c).drop 1)) := by
  refine ⟨?_, ?_, ?_⟩
  · intro c1 c2 h
    show loadLines P FinanceTracker.empty ((fileLines c1).drop 1)
      = loadLines P FinanceTracker.empty ((fileLines c2).drop 1)
    rw [h]
  · intro h body hh
    show loadLines P FinanceTracker.empty ((fileLines (h ++ '\n' :: body)).drop 1) = _
    rw [fileLines_append h body hh, List.drop_one, List.tail_cons]
  · intro c s' h
    have h' : loadLines P FinanceTracker.empty ((fileLines c).drop 1) = some s' := h
    simpa [FinanceTracker.empty] using (loadLines_spec P _ _ _ h').1

/-- C14 (witness): `sampleDoc` and a file with the same second line whose first line is a
well-formed data row load to the same state, with the one transaction of the second
line. -/
theorem load_drops_first_line_witness :
    loadTransactionsFromFile refPlatform FinanceTracker.empty (some sampleDoc)
      = loadTransactionsFromFile refPlatform FinanceTracker.empty (some rowFirstDoc) ∧
    loadTransactionsFromFile refPlatform FinanceTracker.empty
        (some ("01/01/1970 - 10:05AM,Gift,25,income".toList
          ++ '\n' :: "01/01/1970 - 10:00AM,Rent,-900,housing\n".toList))
      = loadLines refPlatform FinanceTracker.empty
          (fileLines "01/01/1970 - 10:00AM,Rent,-900,housing\n".toList) ∧
    sampleLoaded.transactions = acceptedRows refPlatform ((fileLines rowFirstDoc).drop 1) :=
  ⟨(load_drops_first_line refPlatform FinanceTracker.empty).1 sampleDoc rowFirstDoc (by decide!),
   (load_drops_first_line refPlatform FinanceTracker.empty).2.1 _ _ (by decide),
   (load_drops_first_line refPlatform FinanceTracker.empty).2.2 rowFirstDoc sampleLoaded
     (by decide!)⟩

/-- C15: a load replaces the state and merges nothing: for every two prior states and
every file (readable or not) `loadTransactionsFromFile` yields the same result, the one it
yields on a fresh tracker; and when the file cannot be opened the result is the empty
ledger: no transactions, no buckets, balance `0.0`. -/
theorem load_replaces_state (P : Platform) (s1 s2 : FinanceTracker) (file : Option Str) :
    loadTransactionsFromFile P s1 file = loadTransactionsFromFile P s2 file ∧
    loadTransactionsFromFile P s1 file = loadTransactionsFromFile P FinanceTracker.empty file ∧
    loadTransactionsFromFile P s1 none = some FinanceTracker.empty ∧
    FinanceTracker.empty.transactions = [] ∧ FinanceTracker.empty.categorizedTransactions = [] ∧
    FinanceTracker.empty.balance = F64.zero := by
  cases file <;> exact ⟨rfl, rfl, rfl, rfl, rfl, rfl⟩

/-! ### What `parseDateTime` checks -/

theorem decValue_four (a b c d : Nat) (ha : a < 10) (hb : b < 10) (hc : c < 10) (hd : d < 10) :
    decValue [Nat.digitChar a, Nat.digitChar b, Nat.digitChar c, Nat.digitChar d]
      = a * 1000 + b * 100 + c * 10 + d := by
  simp only [decValue, List.foldl_cons, List.foldl_nil, digitChar_val a ha, digitChar_val b hb,
    digitChar_val c hc, digitChar_val d hd]
  omega

/-- Reading a text of the shape `MM/DD/YYYY - hh:mmAM/PM`: the month 1..12, the day 1..31
and the year are taken as written and nothing compares the day with the month. The hour
field is the one the code as it stands produces, with the conversion to the 24-hour clock
not taking place. -/
theorem readDateTime_shape (month day year hour minute : Nat) (pm : Bool)
    (hm1 : 1 ≤ month) (hm2 : month ≤ 12) (hd1 : 1 ≤ day) (hd2 : day ≤ 31) (hy : year ≤ 9999)
    (hh : hour ≤ 99) (hmi : minute ≤ 99) :
    readDateTime (dateTimeShape month day year hour minute pm)
      = some { sec := 0, min := minute, hour := hour, mday := day, mon := (month : Int) - 1,
               year := (year : Int) - 1900, isdst := 0 } := by
  have dg : ∀ n : Nat, n < 100 → ∀ x ∈ [Nat.digitChar (n / 10), Nat.digitChar (n % 10)],
      x.isDigit = true := by
    intro n hn x hx
    simp only [List.mem_cons, List.mem_singleton, List.not_mem_nil, or_false] at hx
    rcases hx with hx | hx <;> subst hx
    · exact digitChar_isDigit _ (by omega)
    · exact digitChar_isDigit _ (by omega)
  have dv : ∀ n : Nat, n < 100 →
      decValue [Nat.digitChar (n / 10), Nat.digitChar (n % 10)] = n := by
    intro n hn
    rw [decValue_two _ _ (by omega) (by omega)]; omega
  have dy : ∀ x ∈ [Nat.digitChar (year / 1000), Nat.digitChar (year / 100 % 10),
      Nat.digitChar (year / 10 % 10), Nat.digitChar (year % 10)], x.isDigit = true := by
    intro x hx
    simp only [List.mem_cons, List.mem_singleton, List.not_mem_nil, or_false] at hx
    rcases hx with hx | hx | hx | hx <;> subst hx <;> exact digitChar_isDigit _ (by omega)
  have vy : decValue [Nat.digitChar (year / 1000), Nat.digitChar (year / 100 % 10),
      Nat.digitChar (year / 10 % 10), Nat.digitChar (year % 10)] = year := by
    rw [decValue_four _ _ _ _ (by omega) (by omega) (by omega) (by omega)]; omega
  have hap : (if pm then 'P' else 'A').isDigit = false ∧
      isSpace (if pm then 'P' else 'A') = false ∧
      [(if pm then 'P' else 'A')] ≠ "PM".toList ∧ [(if pm then 'P' else 'A')] ≠ "AM".toList := by
    cases pm <;> decide
  obtain ⟨a1, a2, a3, a4⟩ := hap
  have eg := getTime_digits (Nat.digitChar (month / 10)) [Nat.digitChar (month % 10)]
    (Nat.digitChar (day / 10)) [Nat.digitChar (day % 10)]
    (Nat.digitChar (year / 1000))
    [Nat.digitChar (year / 100 % 10), Nat.digitChar (year / 10 % 10), Nat.digitChar (year % 10)]
    ' '
    ['-', ' ', Nat.digitChar (hour / 10), Nat.digitChar (hour % 10), ':',
      Nat.digitChar (minute / 10), Nat.digitChar (minute % 10), (if pm then 'P' else 'A'), 'M']
    (dg _ (by omega)) (dg _ (by omega)) dy (by decide) (by simp) (by simp) (by simp)
    (by rw [dv _ (by omega)]; omega) (by rw [dv _ (by omega)]; omega) (by rw [vy]; omega)
  have eh := extractInt_digits (Nat.digitChar (hour / 10)) [Nat.digitChar (hour % 10)] ':'
    [Nat.digitChar (minute / 10), Nat.digitChar (minute % 10), (if pm then 'P' else 'A'), 'M']
    (dg _ (by omega)) (by decide) (by rw [dv _ (by omega)]; omega)
  have em := extractInt_digits (Nat.digitChar (minute / 10)) [Nat.digitChar (minute % 10)]
    (if pm then 'P' else 'A') ['M'] (dg _ (by omega)) a1 (by rw [dv _ (by omega)]; omega)
  rw [dv _ (by omega)] at eh em
  rw [dv _ (by omega), dv _ (by omega), vy] at eg
  simp only [List.singleton_append, List.cons_append, List.nil_append] at eg eh em
  have ec : extractChar (' ' :: '-' :: ' ' :: Nat.digitChar (hour / 10)
      :: Nat.digitChar (hour % 10) :: ':' :: Nat.digitChar (minute / 10)
      :: Nat.digitChar (minute % 10) :: (if pm then 'P' else 'A') :: ['M'])
      = some ('-', ' ' :: Nat.digitChar (hour / 10) :: Nat.digitChar (hour % 10) :: ':'
      :: Nat.digitChar (minute / 10) :: Nat.digitChar (minute % 10)
      :: (if pm then 'P' else 'A') :: ['M']) := by
    simp [extractChar, skipWs, isSpace]
  have ew : extractCStr 2 ((if pm then 'P' else 'A') :: ['M'])
      = some ([(if pm then 'P' else 'A')], ['M']) := by
    simp [extractCStr, skipWs, a2, takeWord]
  unfold readDateTime dateTimeShape
  rw [eg]
  simp only [ec, extractInt_space, eh, ignore, em, ew, a3, a4, false_and, if_false]

/-- C16 (as amended): `parseDateTime` checks nothing but the result of `std::mktime`.
Whenever its extractions succeed it throws exactly when `mktime` returns `-1` for the
fields it hands over, and returns the value of `mktime` otherwise; and for every text of
the shape `MM/DD/YYYY - hh:mmAM/PM` with a month in 1..12 and a day in 1..31 the
extractions succeed and hand the month, the day, the year and the minute to `mktime` as
written, with zero seconds, whether or not the month has such a day, so that the outcome
is the error exactly when `mktime` returns `-1`. Nothing is said about the hour handed
over. -/
theorem parseDateTime_checks_only_mktime (P : Platform) :
    (∀ s tm, readDateTime s = some tm →
      parseDateTime P s = if P.mktime tm = -1 then ParseOutcome.runtimeError
                          else ParseOutcome.value (P.mktime tm)) ∧
    (∀ (month day year hour minute : Nat) (pm : Bool), 1 ≤ month → month ≤ 12 → 1 ≤ day →
      day ≤ 31 → year ≤ 9999 → hour ≤ 99 → minute ≤ 99 →
      ∃ tm, readDateTime (dateTimeShape month day year hour minute pm) = some tm ∧
        tm.mday = day ∧ tm.mon = (month : Int) - 1 ∧ tm.year = (year : Int) - 1900 ∧
        tm.min = minute ∧ tm.sec = 0 ∧
        parseDateTime P (dateTimeShape month day year hour minute pm)
          = if P.mktime tm = -1 then ParseOutcome.runtimeError
            else ParseOutcome.value (P.mktime tm)) := by
  have h1 : ∀ s tm, readDateTime s = some tm →
      parseDateTime P s = if P.mktime tm = -1 then ParseOutcome.runtimeError
                          else ParseOutcome.value (P.mktime tm) := by
    intro s tm h
    unfold parseDateTime
    rw [h]
  refine ⟨h1, ?_⟩
  intro month day year hour minute pm hm1 hm2 hd1 hd2 hy hh hmi
  have e := readDateTime_shape month day year hour minute pm hm1 hm2 hd1 hd2 hy hh hmi
  exact ⟨_, e, rfl, rfl, rfl, rfl, rfl, h1 _ _ e⟩

/-- C16 (witness): the text `02/31/2024 - 10:00AM` on the reference platform. -/
theorem parseDateTime_checks_only_mktime_witness :
    parseDateTime refPlatform "02/31/2024 - 10:00AM".toList
      = (if refPlatform.mktime
            { sec := 0, min := 0, hour := 10, mday := 31, mon := 1, year := 124, isdst := 0 } = -1
          then ParseOutcome.runtimeError
          else ParseOutcome.value (refPlatform.mktime
            { sec := 0, min := 0, hour := 10, mday := 31, mon := 1, year := 124, isdst := 0 })) ∧
    ∃ tm, readDateTime (dateTimeShape 2 31 2024 10 0 false) = some tm ∧
      tm.mday = ((31 : Nat) : Int) ∧ tm.mon = ((2 : Nat) : Int) - 1 ∧
      tm.year = ((2024 : Nat) : Int) - 1900 ∧ tm.min = ((0 : Nat) : Int) ∧ tm.sec = 0 ∧
      parseDateTime refPlatform (dateTimeShape 2 31 2024 10 0 false)
        = if refPlatform.mktime tm = -1 then ParseOutcome.runtimeError
          else ParseOutcome.value (refPlatform.mktime tm) :=
  ⟨(parseDateTime_checks_only_mktime refPlatform).1 "02/31/2024 - 10:00AM".toList
      { sec := 0, min := 0, hour := 10, mday := 31, mon := 1, year := 124, isdst := 0 }
      (by decide!),
   (parseDateTime_checks_only_mktime refPlatform).2 2 31 2024 10 0 false
      (by decide) (by decide) (by decide) (by decide) (by decide) (by decide) (by decide)⟩

/-- C16 (counterexample to the claim as stated, reference platform): for
`02/31/2024 - 10:00AM`, a text of the shape with a day that February does not have,
`parseDateTime` throws nothing and returns 1709373600, the timestamp that
`formatDateTime` prints as `03/02/2024 - 10:00AM`; for `02/31/2024 x 10:00AM` and
`2/3/24 - 10:00AM`, which have not the shape, it returns a timestamp too; and for
`garbage` it throws nothing either: the extractions fail and the function goes on with
variables that were never written. -/
theorem parseDateTime_accepts_feb_31 :
    parseDateTime refPlatform "02/31/2024 - 10:00AM".toList = ParseOutcome.value 1709373600 ∧
    formatDateTime refPlatform 1709373600 = some "03/02/2024 - 10:00AM".toList ∧
    parseDateTime refPlatform "02/31/2024 x 10:00AM".toList = ParseOutcome.value 1709373600 ∧
    parseDateTime refPlatform "2/3/24 - 10:00AM".toList = ParseOutcome.value (-61406949600) ∧
    parseDateTime refPlatform "garbage".toList = ParseOutcome.undefined := by
  decide!

/-! ### More on `getline`, `split` and `join` -/

theorem untilDelim_token_no_delim (d : Char) (s : Str) : d ∉ (untilDelim d s).1 := by
  induction s with
  | nil => simp [untilDelim]
  | cons c cs ih =>
    unfold untilDelim
    split
    · simp
    · rename_i hc
      intro h
      rcases List.mem_cons.mp h with h | h
      · exact hc h.symm
      · exact ih h

theorem getlineLoop_tokens_no_delim (d : Char) (fuel : Nat) : ∀ (s : Str),
    ∀ tok ∈ getlineLoop fuel s d, d ∉ tok := by
  induction fuel with
  | zero => intro s tok h; simp [getlineLoop] at h
  | succ f ih =>
    intro s tok h
    cases s with
    | nil => simp [getlineLoop, getline] at h
    | cons c cs =>
      simp only [getlineLoop, getline, List.mem_cons] at h
      rcases h with h | h
      · rw [h]; exact untilDelim_token_no_delim d (c :: cs)
      · exact ih _ tok h

/-- No token of `split` contains the delimiter. -/
theorem split_tokens_no_delim (d : Char) (s : Str) : ∀ tok ∈ split s d, d ∉ tok :=
  getlineLoop_tokens_no_delim d s.length s

/-- No line read from a file contains a line break. -/
theorem fileLines_no_newline (content : Str) : ∀ line ∈ fileLines content, '\n' ∉ line :=
  getlineLoop_tokens_no_delim '\n' content.length content

theorem split_ne_nil (d : Char) (s : Str) (h : s ≠ []) : split s d ≠ [] := by
  cases s with
  | nil => exact absurd rfl h
  | cons c cs => simp [split, getlineLoop, getline]

/-- A text that contains the delimiter is a delimiter-free head, the delimiter, and a
rest. -/
theorem first_delim (d : Char) (s : Str) (h : d ∈ s) :
    ∃ a rest, s = a ++ d :: rest ∧ d ∉ a := by
  induction s with
  | nil => simp at h
  | cons c cs ih =>
    by_cases hc : c = d
    · exact ⟨[], cs, by simp [hc], by simp⟩
    · have hcs : d ∈ cs := by
        rcases List.mem_cons.mp h with h | h
        · exact absurd h.symm hc
        · exact h
      obtain ⟨a, rest, e, ha⟩ := ih hcs
      refine ⟨c :: a, rest, by simp [e], ?_⟩
      intro hm
      rcases List.mem_cons.mp hm with hm | hm
      · exact hc hm.symm
      · exact ha hm

/-- `join` undoes `split` on a text that does not end with the delimiter. -/
theorem join_split (d : Char) (n : Nat) : ∀ s : Str, s.length ≤ n →
    s.getLast? ≠ some d → join (split s d) [d] = s := by
  induction n with
  | zero =>
    intro s hs _
    have : s = [] := List.length_eq_zero.mp (by omega)
    subst this
    rfl
  | succ n ih =>
    intro s hs hlast
    by_cases hd : d ∈ s
    · obtain ⟨a, rest, e, ha⟩ := first_delim d s hd
      subst e
      have hrest : rest ≠ [] := by
        intro e
        apply hlast
        simp [e]
      have hlast' : rest.getLast? ≠ some d := by
        intro e
        apply hlast
        cases rest with
        | nil => exact absurd rfl hrest
        | cons y ys =>
          rw [List.getLast?_append, List.getLast?_cons_cons, e]
          rfl
      have hlen : rest.length ≤ n := by
        simp only [List.length_append, List.length_cons] at hs
        omega
      rw [split_append d a rest ha]
      have hne := split_ne_nil d rest hrest
      cases hsp : split rest d with
      | nil => exact absurd hsp hne
      | cons y ys =>
        rw [join_cons_cons, ← hsp, ih rest hlen hlast']
        simp
    · by_cases hs0 : s = []
      · subst hs0; rfl
      · rw [split_no_delim d s hs0 hd, join_singleton]

/-! ### The fields of a row -/

/-- C17: for every data line made of three comma-free texts, each followed by a comma,
and a non-empty remainder (a data line holds no line break), the four `getline` calls
give the text before the first comma as the timestamp field, the text between the first
and the second comma as the description, the text between the second and the third comma
as the amount field, and the whole remainder, further commas included, as the tags field.
The decoded timestamp, description and amount come from the first three fields only; the
tags are the remainder split at `;`: no tag contains a `;`, and the tags joined with `;`
give the remainder back character for character when it does not end with `;`, so a
comma of the remainder stays inside its tag. -/
theorem row_fields_first_three_commas (P : Platform) (a b c rest : Str)
    (ha : ',' ∉ a) (hb : ',' ∉ b) (hc : ',' ∉ c) (hne : rest ≠ []) (hnl : '\n' ∉ rest) :
    rowFields (a ++ ',' :: (b ++ ',' :: (c ++ ',' :: rest))) = some (a, b, c, rest) ∧
    decodeRow P (a ++ ',' :: (b ++ ',' :: (c ++ ',' :: rest)))
      = (match parseDateTime P a with
         | ParseOutcome.undefined => RowOutcome.undefined
         | ParseOutcome.runtimeError => RowOutcome.caught
         | ParseOutcome.value timestamp =>
           match P.stod c with
           | none => RowOutcome.caught
           | some amount =>
             RowOutcome.parsed { description := b, amount := amount, timestamp := timestamp,
                                 tags := split rest ';' }) ∧
    (∀ tag ∈ split rest ';', ';' ∉ tag) ∧
    (rest.getLast? ≠ some ';' → join (split rest ';') ";".toList = rest) := by
  have hf : rowFields (a ++ ',' :: (b ++ ',' :: (c ++ ',' :: rest))) = some (a, b, c, rest) := by
    unfold rowFields
    simp only [getline_append ',' _ _ ha, getline_append ',' _ _ hb, getline_append ',' _ _ hc,
      getline_no_delim '\n' rest hne hnl]
  refine ⟨hf, ?_, split_tokens_no_delim ';' rest, fun h => join_split ';' rest.length rest
    (le_refl _) h⟩
  unfold decodeRow
  rw [hf]

/-- C17 (witness): a line whose remainder after the third comma holds two more commas. -/
theorem row_fields_first_three_commas_witness :
    rowFields ("01/01/1970 - 10:00AM".toList ++ ',' :: ("Rent".toList ++ ',' ::
        ("-900".toList ++ ',' :: "home,rent;fixed,monthly".toList)))
      = some ("01/01/1970 - 10:00AM".toList, "Rent".toList, "-900".toList,
          "home,rent;fixed,monthly".toList) ∧
    decodeRow refPlatform ("01/01/1970 - 10:00AM".toList ++ ',' :: ("Rent".toList ++ ',' ::
        ("-900".toList ++ ',' :: "home,rent;fixed,monthly".toList)))
      = (match parseDateTime refPlatform "01/01/1970 - 10:00AM".toList with
         | ParseOutcome.undefined => RowOutcome.undefined
         | ParseOutcome.runtimeError => RowOutcome.caught
         | ParseOutcome.value timestamp =>
           match refPlatform.stod "-900".toList with
           | none => RowOutcome.caught
           | some amount =>
             RowOutcome.parsed { description := "Rent".toList, amount := amount,
                                 timestamp := timestamp,
                                 tags := split "home,rent;fixed,monthly".toList ';' }) ∧
    (∀ tag ∈ split "home,rent;fixed,monthly".toList ';', ';' ∉ tag) ∧
    ("home,rent;fixed,monthly".toList.getLast? ≠ some ';' →
      join (split "home,rent;fixed,monthly".toList ';') ";".toList
        = "home,rent;fixed,monthly".toList) :=
  row_fields_first_three_commas refPlatform "01/01/1970 - 10:00AM".toList "Rent".toList
    "-900".toList "home,rent;fixed,monthly".toList (by decide) (by decide) (by decide)
    (by decide) (by decide)

/-! ### `join` and `split` -/

theorem join_length (d : Str) (vec : List Str) :
    (join vec d).length = (vec.map List.length).sum + (vec.length - 1) * d.length := by
  induction vec with
  | nil => simp [join_nil]
  | cons x xs ih =>
    cases xs with
    | nil => simp [join_singleton]
    | cons y ys =>
      rw [join_cons_cons]
      simp only [List.length_append, ih, List.map_cons, List.sum_cons, List.length_cons,
        Nat.add_sub_cancel]
      ring

theorem join_eq_intercalate (d : Str) (vec : List Str) : join vec d = List.intercalate d vec := by
  induction vec with
  | nil => simp [join_nil, List.intercalate]
  | cons x xs ih =>
    cases xs with
    | nil => simp [join_singleton, List.intercalate]
    | cons y ys =>
      rw [join_cons_cons, ih]
      simp [List.intercalate, List.intersperse]

/-- C18: for every list of strings and every delimiter string, `join` is the
concatenation of the elements in order with the delimiter between each two neighbours
(`List.intercalate`): the empty list gives the empty string, a one-element list gives its
element, a longer list gives the first element, the delimiter, and the join of the rest,
so that no delimiter leads or trails; and the length of the result is the sum of the
lengths of the elements plus `(vec.size() - 1)` times the length of the delimiter (for the
empty list the difference is taken as 0). -/
theorem join_is_intercalate (vec : List Str) (d : Str) :
    join vec d = List.intercalate d vec ∧
    join [] d = [] ∧
    (∀ x, join [x] d = x) ∧
    (∀ x y ys, join (x :: y :: ys) d = x ++ d ++ join (y :: ys) d) ∧
    (join vec d).length = (vec.map List.length).sum + (vec.length - 1) * d.length :=
  ⟨join_eq_intercalate d vec, join_nil d, fun x => join_singleton x d,
    fun x y ys => join_cons_cons x y ys d, join_length d vec⟩

/-- C19: for every delimiter character, `split` undoes `join` on every list of tags that
are not empty and do not contain the delimiter (the empty list included, which joins to
the empty string and splits to the empty list); and `join` undoes `split` on every string
that does not end with the delimiter. -/
theorem split_join_inverse (d : Char) :
    (∀ tags : List Str, (∀ g ∈ tags, g ≠ [] ∧ d ∉ g) → split (join tags [d]) d = tags) ∧
    (∀ s : Str, s.getLast? ≠ some d → join (split s d) [d] = s) := by
  refine ⟨?_, fun s h => join_split d s.length s (le_refl _) h⟩
  intro tags h
  by_cases ht : tags = []
  · subst ht; rfl
  · apply split_join d tags ht (fun g hg => (h g hg).2)
    intro e
    exact (h [] (List.mem_of_getLast?_eq_some e)).1 rfl

/-- C19 (witness): the tags `income`, `housing` and the string `a,b;;c` with `;`. -/
theorem split_join_inverse_witness :
    split (join ["income".toList, "housing".toList] [';']) ';'
      = ["income".toList, "housing".toList] ∧
    join (split "a,b;;c".toList ';') [';'] = "a,b;;c".toList :=
  ⟨(split_join_inverse ';').1 ["income".toList, "housing".toList] (by decide),
   (split_join_inverse ';').2 "a,b;;c".toList (by decide)⟩

/-! ### Rows that are not decoded -/

theorem untilDelim_rest_count (d : Char) (s : Str) :
    (untilDelim d s).2.count d = s.count d - 1 := by
  induction s with
  | nil => simp [untilDelim]
  | cons c cs ih =>
    unfold untilDelim
    by_cases hc : c = d
    · subst hc; simp
    · simp only [hc, if_false, ih]
      rw [List.count_cons]
      simp [hc]

theorem getline_rest (d : Char) (s tok rest : Str) (h : getline s d = some (tok, rest)) :
    rest.count d = s.count d - 1 ∧ (s.count d = 0 → rest = []) := by
  cases s with
  | nil => simp [getline] at h
  | cons c cs =>
    simp only [getline, Option.some.injEq] at h
    have h2 : rest = (untilDelim d (c :: cs)).2 := by rw [h]
    refine ⟨by rw [h2]; exact untilDelim_rest_count d (c :: cs), ?_⟩
    intro h0
    rw [h2, untilDelim_no_delim d (c :: cs) (List.count_eq_zero.mp h0)]

/-- A line with fewer than three commas is not cut into four fields. -/
theorem rowFields_few_commas (line : Str) (h : line.count ',' < 3) : rowFields line = none := by
  unfold rowFields
  cases h1 : getline line ',' with
  | none => rfl
  | some p1 =>
    obtain ⟨a, r1⟩ := p1
    obtain ⟨c1, z1⟩ := getline_rest ',' line a r1 h1
    simp only
    cases h2 : getline r1 ',' with
    | none => rfl
    | some p2 =>
      obtain ⟨b, r2⟩ := p2
      obtain ⟨c2, z2⟩ := getline_rest ',' r1 b r2 h2
      simp only
      cases h3 : getline r2 ',' with
      | none => rfl
      | some p3 =>
        obtain ⟨c, r3⟩ := p3
        obtain ⟨c3, z3⟩ := getline_rest ',' r2 c r3 h3
        simp only
        have hr1 : r1 ≠ [] := by intro e; rw [e] at h2; simp [getline] at h2
        have hr2 : r2 ≠ [] := by intro e; rw [e] at h3; simp [getline] at h3
        have n1 : line.count ',' ≠ 0 := fun e => hr1 (z1 e)
        have n2 : r1.count ',' ≠ 0 := fun e => hr2 (z2 e)
        have e3 : r3 = [] := z3 (by omega)
        rw [e3]
        rfl

/-- A line that ends with its third comma is not cut into four fields. -/
theorem rowFields_empty_tags (a b c : Str) (ha : ',' ∉ a) (hb : ',' ∉ b) (hc : ',' ∉ c) :
    rowFields (a ++ ',' :: (b ++ ',' :: (c ++ [',']))) = none := by
  have e0 : getline [] '\n' = none := rfl
  have e3 : getline (c ++ [',']) ',' = some (c, []) := getline_append ',' c [] hc
  unfold rowFields
  simp only [getline_append ',' _ _ ha, getline_append ',' _ _ hb, e3, e0]

/-- C20: for every data line with fewer than three commas, and for every data line that
ends with its third comma (the row that saving a transaction without tags writes), the
four-`getline` condition is false: the line is skipped whatever its timestamp and amount
fields hold, `parseDateTime` and `std::stod` are not reached, the loop body leaves the
transaction sequence, the balance and the tag index as they are, and the loop goes on
with the next line. -/
theorem short_row_is_skipped (P : Platform) (ft : FinanceTracker) (line : Str)
    (lines : List Str)
    (h : line.count ',' < 3 ∨
      ∃ a b c, ',' ∉ a ∧ ',' ∉ b ∧ ',' ∉ c ∧ line = a ++ ',' :: (b ++ ',' :: (c ++ [',']))) :
    rowFields line = none ∧ decodeRow P line = RowOutcome.skipped ∧
    loadLine P ft line = some ft ∧
    loadLines P ft (line :: lines) = loadLines P ft lines ∧
    acceptedRows P (line :: lines) = acceptedRows P lines ∧
    (∀ t, t.tags = [] → ',' ∉ t.description → ',' ∉ P.render t.amount →
      ∀ row, encodeRow P t = some row → decodeRow P row = RowOutcome.skipped) := by
  have hf : rowFields line = none := by
    rcases h with h | ⟨a, b, c, ha, hb, hc, e⟩
    · exact rowFields_few_commas line h
    · rw [e]; exact rowFields_empty_tags a b c ha hb hc
  have hd : decodeRow P line = RowOutcome.skipped := by
    unfold decodeRow; rw [hf]
  have hl : loadLine P ft line = some ft := loadLine_skipped P ft line (Or.inl hd)
  refine ⟨hf, hd, hl, ?_, ?_, ?_⟩
  · simp only [loadLines, hl]
  · rw [acceptedRows_cons]
    simp [acceptedRows, hd]
  · intro t ht hdesc hren row hrow
    unfold encodeRow formatDateTime at hrow
    cases hlt : P.localtime t.timestamp with
    | none => rw [hlt] at hrow; simp at hrow
    | some tm =>
      rw [hlt] at hrow
      simp only [Option.map_some', Option.some.injEq] at hrow
      have e : row = formatTm tm ++ ',' :: (t.description ++ ',' :: (P.render t.amount ++ [','])) := by
        rw [← hrow, ht]
        simp [join_nil]
      unfold decodeRow
      rw [e, rowFields_empty_tags _ _ _ (formatTm_no_comma tm) hdesc hren]

/-- C20 (witness): the line `Rent,-900` with one comma on the reference platform. -/
theorem short_row_is_skipped_witness :
    rowFields "Rent,-900".toList = none ∧
    decodeRow refPlatform "Rent,-900".toList = RowOutcome.skipped ∧
    loadLine refPlatform sampleLoaded "Rent,-900".toList = some sampleLoaded ∧
    loadLines refPlatform sampleLoaded ("Rent,-900".toList :: [untaggedLine])
      = loadLines refPlatform sampleLoaded [untaggedLine] ∧
    acceptedRows refPlatform ("Rent,-900".toList :: [untaggedLine])
      = acceptedRows refPlatform [untaggedLine] ∧
    (∀ t, t.tags = [] → ',' ∉ t.description → ',' ∉ refPlatform.render t.amount →
      ∀ row, encodeRow refPlatform t = some row →
        decodeRow refPlatform row = RowOutcome.skipped) :=
  short_row_is_skipped refPlatform sampleLoaded "Rent,-900".toList [untaggedLine]
    (Or.inl (by decide))

end Wealthify
